import Mathlib

/-!
# Verification of the github-username-migrator core

Shallow embedding of the core modules of the `github-username-migrator`
repository (`src/core/git-remote.ts`, `src/core/scanner.ts`,
`src/core/migrator.ts`, `src/core/logger.ts`,
`src/constants/ignore-patterns.ts`) and proofs about them.

Strings are modelled by Lean `String` / `List Char`; the JavaScript regular
expressions used by the source are translated into explicit deterministic
character-list matchers (each translation is justified in its doc comment).
The filesystem is modelled by an inductive tree, and the `AbortSignal` by a
`Bool` that is constant for the duration of one call (cancellation is only
ever observed at the documented check points).
-/

/-! ## Character and line utilities -/

/-- Whitespace, as used by `String.prototype.trim` and the `\s` class
(restricted to the ASCII whitespace that actually occurs in git configs). -/
def isWs (c : Char) : Bool := c.isWhitespace

/-- `.` in a JavaScript regex without the `s` flag: any character except a
line terminator. -/
def jsDot (c : Char) : Bool :=
  c ≠ '\n' && c ≠ '\r' && c.val ≠ 0x2028 && c.val ≠ 0x2029

/-- Drop trailing whitespace. -/
def dropTrailingWs (l : List Char) : List Char :=
  (l.reverse.dropWhile isWs).reverse

/-- JS `String.prototype.trim` on a character list. -/
def trimL (l : List Char) : List Char :=
  dropTrailingWs (l.dropWhile isWs)

/-- JS `content.split('\n')` on a character list.  Always returns at least
one (possibly empty) line. -/
def splitLines : List Char → List (List Char)
  | [] => [[]]
  | c :: cs =>
    if c = '\n' then [] :: splitLines cs
    else
      match splitLines cs with
      | [] => [[c]]
      | l :: ls => (c :: l) :: ls

/-- JS `lines.join('\n')` on character lists. -/
def joinLines : List (List Char) → List Char
  | [] => []
  | [l] => l
  | l :: ls => l ++ '\n' :: joinLines ls

/-! ## `src/core/git-remote.ts`: regex matchers

`parseGitConfig` and `updateRemoteInConfig` use three regexes; each is
translated into a deterministic matcher.  Greedy sub-patterns followed by a
character they can never consume (`\s+"`, `\s*=`, `[^/]+\/`, `[^"]+"`) need
no backtracking, so `takeWhile`/`dropWhile` translations are exact. -/

/-- `/^\[remote\s+"([^"]+)"\]$/` applied to a (trimmed) line: returns the
captured remote name. -/
def headerName (t : List Char) : Option String :=
  match t with
  | '[' :: 'r' :: 'e' :: 'm' :: 'o' :: 't' :: 'e' :: rest =>
    if rest.takeWhile isWs = [] then none
    else
      match rest.dropWhile isWs with
      | '"' :: rest2 =>
        let name := rest2.takeWhile (fun c => !(c = '"'))
        match rest2.dropWhile (fun c => !(c = '"')) with
        | '"' :: ']' :: [] => if name = [] then none else some (String.mk name)
        | _ => none
      | _ => none
  | _ => none

/-- The `\s*(.+)$` tail of the url regexes, applied to what follows the `=`.
Greedy `\s*` first takes the maximal whitespace prefix; if nothing remains,
it backtracks one character at a time, so an all-whitespace remainder
matches with the last character as capture provided that character can be
matched by `.`. -/
def matchValueCapture (rest2 : List Char) : Option (List Char) :=
  let r0 := rest2.dropWhile isWs
  if r0 ≠ [] then
    if r0.all jsDot then some r0 else none
  else
    match rest2.getLast? with
    | some c => if jsDot c then some [c] else none
    | none => none

/-- `/^url\s*=\s*(.+)$/` applied to a trimmed line (`parseGitConfig`):
returns the captured value. -/
def parseUrlValue (t : List Char) : Option (List Char) :=
  match t with
  | 'u' :: 'r' :: 'l' :: rest =>
    match rest.dropWhile isWs with
    | '=' :: rest2 => matchValueCapture rest2
    | _ => none
  | _ => none

/-- `/^(\s*)url\s*=\s*(.+)$/` applied to a raw line
(`updateRemoteInConfig`): returns the captured leading whitespace. -/
def rawUrlMatch (l : List Char) : Option (List Char) :=
  let indent := l.takeWhile isWs
  match l.dropWhile isWs with
  | 'u' :: 'r' :: 'l' :: rest =>
    match rest.dropWhile isWs with
    | '=' :: rest2 => (matchValueCapture rest2).map (fun _ => indent)
    | _ => none
  | _ => none

/-! ## `src/core/git-remote.ts`: parseGitConfig -/

/-- `GitRemote` from `src/types.ts`. -/
structure GitRemote where
  name : String
  url : String
deriving DecidableEq, Repr

/-- The line loop of `parseGitConfig`, carrying `currentRemote`. -/
def parseLines : List (List Char) → Option String → List GitRemote
  | [], _ => []
  | l :: ls, cur =>
    let t := trimL l
    match headerName t with
    | some n => parseLines ls (some n)
    | none =>
      if t.head? = some '[' then parseLines ls none
      else
        match cur with
        | some name =>
          match parseUrlValue t with
          | some v => { name := name, url := String.mk (trimL v) } :: parseLines ls (some name)
          | none => parseLines ls (some name)
        | none => parseLines ls none

/-- `parseGitConfig` (git-remote.ts:26). -/
def parseGitConfig (configContent : String) : List GitRemote :=
  parseLines (splitLines configContent.toList) none

/-! ## `src/core/git-remote.ts`: GitHub URL matching -/

/-- `startsWithL p s`: `p` is a prefix of `s` (JS `RegExp` anchored literal
prefix). -/
def startsWithL : List Char → List Char → Bool
  | [], _ => true
  | _ :: _, [] => false
  | p :: ps, c :: cs => p = c && startsWithL ps cs

/-- Split a character list at its first `'/'`; `([^/]+)\/` takes the
maximal slash-free run then requires the slash, i.e. exactly this split
(with a nonemptiness condition checked by the caller). -/
def splitFirstSlash : List Char → Option (List Char × List Char)
  | [] => none
  | c :: cs =>
    if c = '/' then some ([], cs)
    else (splitFirstSlash cs).map (fun p => (c :: p.1, p.2))

/-- `['.','g','i','t'].isSuffixOf s`, i.e. `s` ends with `".git"`. -/
def endsGit (s : List Char) : Bool :=
  ['.', 'g', 'i', 't'].isSuffixOf s

/-- `(.+?)(?:\.git)?$`: the lazy group prefers the shortest repo, so the
trailing `".git"` is split off whenever what remains is nonempty; either
way the repo characters must all be matched by `.`. -/
def matchRepoExt (s : List Char) : Option (List Char) :=
  if endsGit s && s.take (s.length - 4) ≠ [] && (s.take (s.length - 4)).all jsDot then
    some (s.take (s.length - 4))
  else if s ≠ [] && s.all jsDot then some s
  else none

/-- `git@github.com:` (the literal part of `GITHUB_SSH_REGEX`). -/
def sshPre : List Char := "git@github.com:".toList

/-- `https://github.com/` (the literal part of `GITHUB_HTTPS_REGEX`). -/
def httpsPre : List Char := "https://github.com/".toList

/-- Shared shape of `GITHUB_SSH_REGEX` and `GITHUB_HTTPS_REGEX`:
`^<pre>([^/]+)\/(.+?)(?:\.git)?$`.  Returns (owner, repo) captures. -/
def matchGitHub (pre url : List Char) : Option (List Char × List Char) :=
  if startsWithL pre url then
    match splitFirstSlash (url.drop pre.length) with
    | some (o, r) =>
      if o = [] then none
      else (matchRepoExt r).map (fun repo => (o, repo))
    | none => none
  else none

/-- `isGitHubUrl` (git-remote.ts:79). -/
def isGitHubUrl (url : String) : Bool :=
  (matchGitHub sshPre url.toList).isSome || (matchGitHub httpsPre url.toList).isSome

/-- `extractGitHubUsername` (git-remote.ts:89). -/
def extractGitHubUsername (url : String) : Option String :=
  match matchGitHub sshPre url.toList with
  | some (o, _) => some (String.mk o)
  | none =>
    match matchGitHub httpsPre url.toList with
    | some (o, _) => some (String.mk o)
    | none => none

/-- `url.endsWith('.git')` (used for `hasGitSuffix`). -/
def hasGitSuffix (url : String) : Bool := endsGit url.toList

/-- JS `toLowerCase()` on a character list (ASCII case folding, which is
all that GitHub usernames use). -/
def toLowerL (l : List Char) : List Char := l.map Char.toLower

/-- One branch of `replaceGitHubUsername`: if the shape matches and the
owner case-insensitively equals `oldUsername`, rebuild the URL. -/
def replaceViaShape (pre : List Char) (url oldUsername newUsername : String) :
    Option String :=
  match matchGitHub pre url.toList with
  | some (o, repo) =>
    if toLowerL o = toLowerL oldUsername.toList then
      some (String.mk (pre ++ newUsername.toList ++ '/' :: repo ++
        (if hasGitSuffix url then ".git".toList else [])))
    else none
  | none => none

/-- `replaceGitHubUsername` (git-remote.ts:111): try SSH, then HTTPS, else
return the URL unchanged. -/
def replaceGitHubUsername (url oldUsername newUsername : String) : String :=
  match replaceViaShape sshPre url oldUsername newUsername with
  | some u => u
  | none =>
    match replaceViaShape httpsPre url oldUsername newUsername with
    | some u => u
    | none => url

/-- `urlContainsUsername` (git-remote.ts:138). -/
def urlContainsUsername (url username : String) : Bool :=
  match extractGitHubUsername url with
  | some e => toLowerL e.toList = toLowerL username.toList
  | none => false

/-! ## `src/core/git-remote.ts`: updateRemoteInConfig -/

/-- The line loop of `updateRemoteInConfig`, carrying
`(inTargetRemote, urlUpdated)`. -/
def updateLines (remoteName newUrl : String) :
    List (List Char) → Bool → Bool → List (List Char)
  | [], _, _ => []
  | l :: ls, inT, upd =>
    let t := trimL l
    match headerName t with
    | some n => l :: updateLines remoteName newUrl ls (n = remoteName) upd
    | none =>
      if t.head? = some '[' then l :: updateLines remoteName newUrl ls false upd
      else if inT && !upd then
        match rawUrlMatch l with
        | some indent =>
          (indent ++ ("url = " ++ newUrl).toList) ::
            updateLines remoteName newUrl ls inT true
        | none => l :: updateLines remoteName newUrl ls inT upd
      else l :: updateLines remoteName newUrl ls inT upd

/-- `updateRemoteInConfig` (git-remote.ts:151). -/
def updateRemoteInConfig (configContent remoteName newUrl : String) : String :=
  String.mk (joinLines
    (updateLines remoteName newUrl (splitLines configContent.toList) false false))

/-- Specification-side index of the line `updateRemoteInConfig` rewrites:
the first `url` line inside a section named `remoteName` (tracking the
same section state as the rewriter). -/
def findTargetUrlIdx (remoteName : String) :
    List (List Char) → Bool → Option Nat
  | [], _ => none
  | l :: ls, inT =>
    let t := trimL l
    match headerName t with
    | some n => (findTargetUrlIdx remoteName ls (n = remoteName)).map (· + 1)
    | none =>
      if t.head? = some '[' then (findTargetUrlIdx remoteName ls false).map (· + 1)
      else if inT then
        match rawUrlMatch l with
        | some _ => some 0
        | none => (findTargetUrlIdx remoteName ls inT).map (· + 1)
      else (findTargetUrlIdx remoteName ls inT).map (· + 1)

/-! ## `src/constants/ignore-patterns.ts` -/

/-- `IGNORE_PATTERNS` (ignore-patterns.ts:8). -/
def IGNORE_PATTERNS : List String :=
  [ "node_modules", ".pnpm-store", ".npm", ".yarn", ".bun", "vendor",
    ".cargo", ".rustup", "go/pkg", ".gradle", ".m2", ".ivy2", ".sbt",
    "Pods", ".pub-cache", ".nuget",
    ".venv", "venv", "__pycache__", ".conda", ".virtualenvs",
    "dist", "build", "out", "target", ".next", ".nuxt", ".output",
    ".idea", ".vs", ".fleet",
    "Library/Caches", "Library/Application Support", "Library/Developer",
    "Library/Containers", "Library/Group Containers", ".Trash",
    ".cache", ".local/share/Trash", "snap",
    "AppData/Local/Temp", "AppData/Local/npm-cache", "AppData/Roaming/npm-cache",
    ".git/objects", ".git/lfs",
    ".svn", ".hg",
    ".docker", ".vagrant", "VirtualBox VMs",
    "Dropbox", "Google Drive", "OneDrive", "iCloud Drive",
    "Downloads", ".Spotlight-V100", ".fseventsd", ".DocumentRevisions-V100",
    ".TemporaryItems" ]

/-- JS `segment.includes(pattern)`: `pattern` occurs as a contiguous
substring of `segment`. -/
def strIncludes (segment pattern : String) : Bool :=
  decide (pattern.toList <:+: segment.toList)

/-- `shouldIgnoreSegment` (ignore-patterns.ts:100). -/
def shouldIgnoreSegment (segment : String) : Bool :=
  IGNORE_PATTERNS.any (fun p => segment = p || strIncludes segment p)

/-! ## `src/core/scanner.ts`: glob matching -/

/-- Fuelled matcher for the regex produced by `matchGlob`:
`*` became `[^/]*`, `**` became `.*`, `?` became `.`, every other
character a (case-insensitively compared, `'i'` flag) literal.  Each step
shortens `pattern.length + name.length`, so the wrapper's fuel is never
exhausted. -/
def globMatchF : Nat → List Char → List Char → Bool
  | 0, _, _ => false
  | fuel + 1, p, s =>
    match p, s with
    | [], [] => true
    | [], _ :: _ => false
    | '*' :: '*' :: ps, s =>
      globMatchF fuel ps s ||
        (match s with
         | [] => false
         | c :: cs => jsDot c && globMatchF fuel ('*' :: '*' :: ps) cs)
    | '*' :: ps, s =>
      globMatchF fuel ps s ||
        (match s with
         | [] => false
         | c :: cs => !(c = '/') && globMatchF fuel ('*' :: ps) cs)
    | '?' :: ps, s =>
      match s with
      | [] => false
      | c :: cs => jsDot c && globMatchF fuel ps cs
    | pc :: ps, s =>
      match s with
      | [] => false
      | c :: cs => pc.toLower = c.toLower && globMatchF fuel ps cs

/-- `matchGlob` (scanner.ts:20). -/
def matchGlob (pattern name : String) : Bool :=
  globMatchF (pattern.toList.length + name.toList.length + 1)
    pattern.toList name.toList

/-- `matchesExcludePattern` (scanner.ts:50). -/
def matchesExcludePattern (name : String) (patterns : List String) : Bool :=
  patterns.any (fun pattern => matchGlob pattern name)

/-! ## Filesystem model

The scanner and migrator touch the filesystem through `readdir`, `stat`,
`readFile` and `writeFile`.  Directory trees are modelled by an inductive
type; `unreadable` stands for a directory whose `readdir` (or a file whose
read) fails with an error. -/

inductive FSEntry where
  | dir (name : String) (entries : List FSEntry)
  | file (name : String) (content : String)
  | unreadable (name : String)
deriving Repr

/-- `entry.name`. -/
def entryName : FSEntry → String
  | .dir n _ => n
  | .file n _ => n
  | .unreadable n => n

/-- JS `name.startsWith('.')`, on the character list (kernel-computable
form of `String.startsWith`). -/
def startsWithDot (s : String) : Bool := s.toList.head? = some '.'

/-- `entry.isDirectory()` (an unreadable directory still stats as a
directory). -/
def isDirEntry : FSEntry → Bool
  | .dir _ _ => true
  | .file _ _ => false
  | .unreadable _ => true

/-- `isGitRepository` (scanner.ts:81): the directory contains a child
directory named `.git`. -/
def isGitRepo : FSEntry → Bool
  | .dir _ es => es.any (fun c => entryName c = ".git" && isDirEntry c)
  | _ => false

/-- Find the child entry with a given name (`path.join(dir, name)`
resolution; names are unique on a real filesystem). -/
def childNamed (nm : String) (es : List FSEntry) : Option FSEntry :=
  es.find? (fun c => entryName c = nm)

/-- Resolve a root-relative path (list of segments). -/
def lookupPath : FSEntry → List String → Option FSEntry
  | e, [] => some e
  | .dir _ es, n :: rest =>
    match childNamed n es with
    | some c => lookupPath c rest
    | none => none
  | _, _ :: _ => none

/-- Content of `<path>/.git/config`, when readable. -/
def getConfigContent (root : FSEntry) (p : List String) : Option String :=
  match lookupPath root p with
  | some (.dir _ es) =>
    match childNamed ".git" es with
    | some (.dir _ ges) =>
      match childNamed "config" ges with
      | some (.file _ content) => some content
      | _ => none
    | _ => none
  | _ => none

/-- The `readFile` error message for a missing `.git/config` (Node's
`ENOENT`; the exact text is irrelevant, only that it is nonempty). -/
def enoentMsg : String := "ENOENT: no such file or directory"

/-- `getRemoteUrls` (git-remote.ts:70): read and parse `.git/config`,
throwing when the file cannot be read. -/
def getRemoteUrls (root : FSEntry) (p : List String) :
    Except String (List GitRemote) :=
  match getConfigContent root p with
  | some content => .ok (parseGitConfig content)
  | none => .error enoentMsg

/-! ## `src/core/git-remote.ts`: findMatchingRemotes -/

/-- `MatchedRemote` from `src/types.ts`. -/
structure MatchedRemote where
  remote : GitRemote
  newUrl : String
deriving DecidableEq, Repr

/-- The remote loop of `findMatchingRemotes` (git-remote.ts:228). -/
def findMatchingCore (remotes : List GitRemote)
    (oldUsername newUsername : String) : List MatchedRemote :=
  remotes.filterMap (fun r =>
    if urlContainsUsername r.url oldUsername then
      some { remote := r, newUrl := replaceGitHubUsername r.url oldUsername newUsername }
    else none)

/-- `findMatchingRemotes` (git-remote.ts:215). -/
def findMatchingRemotes (root : FSEntry) (p : List String)
    (oldUsername newUsername : String) : Except String (List MatchedRemote) :=
  (getRemoteUrls root p).map
    (fun remotes => findMatchingCore remotes oldUsername newUsername)

/-! ## Custom-pattern mode (modelled from the spec)

`scanner.ts` imports `findMatchingRemotesWithPattern` from
`./git-remote`, but no definition of it (nor of its regex substitution)
exists under `src/`; only this import, its call site (scanner.ts:237) and
tests remain.  So the substitution is modelled from the spec, §4.3:
"compiles `fromPattern` as a regular expression and performs a single
substitution using `toTemplate`, where `$N` in the template refers to the
Nth capture group; if the pattern does not match, the URL is returned
unchanged."  The JS `RegExp` engine itself is abstracted as a match
oracle returning the first match's decomposition and captures. -/

/-- Result of matching a compiled pattern against a string: the text
before the first match, the matched text, the text after it, and the
capture groups. -/
structure RegexMatch where
  pre : String
  matched : String
  post : String
  captures : List String
deriving Repr

/-- A regex engine: given a pattern source and a subject, the first
match, if any. -/
def RegexEngine : Type := String → String → Option RegexMatch

/-- Modelled from the spec: `$N` substitution into the replacement
template (`$1`–`$9`; an out-of-range reference is left literal). -/
def substCaps : List Char → List String → List Char
  | [], _ => []
  | '$' :: c :: rest, caps =>
    if c.isDigit && !(c = '0') then
      match caps.get? (c.toNat - '1'.toNat) with
      | some cap => cap.toList ++ substCaps rest caps
      | none => '$' :: c :: substCaps rest caps
    else '$' :: substCaps (c :: rest) caps
  | c :: rest, caps => c :: substCaps rest caps

/-- Modelled from the spec: instantiate `toTemplate` with the captures of
a match. -/
def substTemplate (template : String) (captures : List String) : String :=
  String.mk (substCaps template.toList captures)

/-- Modelled from the spec (§4.3 alternate mode): a single substitution
of the first match of `fromPattern` in `url` by the instantiated
`toTemplate`; if the pattern does not match, `url` unchanged. -/
def applyCustomPattern (engine : RegexEngine) (url fromPattern toTemplate : String) :
    String :=
  match engine fromPattern url with
  | none => url
  | some m => m.pre ++ substTemplate toTemplate m.captures ++ m.post

/-- Modelled from the spec: the remote loop of
`findMatchingRemotesWithPattern`; a remote is matched when the pattern
matches its URL (glossary: "a repository with at least one remote whose
owner (or custom-pattern match) qualifies for rewriting"). -/
def findMatchingPatternCore (engine : RegexEngine) (remotes : List GitRemote)
    (fromPattern toTemplate : String) : List MatchedRemote :=
  remotes.filterMap (fun r =>
    match engine fromPattern r.url with
    | none => none
    | some _ =>
      some { remote := r, newUrl := applyCustomPattern engine r.url fromPattern toTemplate })

/-- Modelled from the spec: `findMatchingRemotesWithPattern` as imported
by scanner.ts:14 and called at scanner.ts:237. -/
def findMatchingRemotesWithPattern (engine : RegexEngine) (root : FSEntry)
    (p : List String) (fromPattern toTemplate : String) :
    Except String (List MatchedRemote) :=
  (getRemoteUrls root p).map
    (fun remotes => findMatchingPatternCore engine remotes fromPattern toTemplate)

/-! ## `src/core/scanner.ts`: the directory walk -/

/-- Events yielded by the `scanDirectory` generator (scanner.ts:94). -/
inductive ScanEvent where
  | dirE
  | skipE
  | repoE (path : List String)
  | errorE (path : List String) (message : String)
deriving DecidableEq, Repr

/-- The `readdir` failure message for an unreadable directory (the exact
text is irrelevant to every claim). -/
def readdirErrMsg : String := "EACCES: permission denied"

/-- `scanDirectory` (scanner.ts:94).  Paths are root-relative segment
lists; `ab` is the abort signal (constant during the call, see the module
doc comment).  `fuel` is a structural-recursion bound: the walk increments
`depth` at every level and stops once `depth > maxDepth`, so any
`fuel > maxDepth - depth + 1` gives the exact generator semantics (the
wrapper passes `maxDepth + 2`). -/
def scanDirF : Nat → FSEntry → List String → Nat → Nat → Bool → List String →
    List ScanEvent
  | 0, _, _, _, _, _, _ => []
  | fuel + 1, e, path, depth, maxDepth, ab, excl =>
    if ab then []
    else if depth > maxDepth then []
    else
      ScanEvent.dirE ::
        (if isGitRepo e then [ScanEvent.repoE path]
         else
           match e with
           | .dir _ es =>
             es.flatMap (fun c =>
               if ab then []
               else if !isDirEntry c then []
               else if startsWithDot (entryName c) && !(entryName c = ".git") then
                 [ScanEvent.skipE]
               else if shouldIgnoreSegment (entryName c) then [ScanEvent.skipE]
               else if matchesExcludePattern (entryName c) excl then [ScanEvent.skipE]
               else scanDirF fuel c (path ++ [entryName c]) (depth + 1) maxDepth ab excl)
           | _ => [ScanEvent.errorE path readdirErrMsg])

/-- `scanDirectory` with enough fuel for its depth bound. -/
def scanDirectory (e : FSEntry) (maxDepth : Nat) (ab : Bool)
    (excl : List String) : List ScanEvent :=
  scanDirF (maxDepth + 2) e [] 0 maxDepth ab excl

/-- `CustomPattern` (scanner.ts:55); `from`/`to` renamed because `from` is
a Lean keyword. -/
structure CustomPattern where
  fromPat : String
  toPat : String
deriving Repr

/-- `MatchedRepository` from `src/types.ts` (paths as segment lists). -/
structure MatchedRepository where
  path : List String
  remotes : List GitRemote
  matchedRemotes : List MatchedRemote
deriving DecidableEq, Repr

/-- `ScanError` from `src/types.ts`. -/
structure ScanError where
  path : List String
  message : String
deriving DecidableEq, Repr

/-- `ScanResult` from `src/types.ts` plus the scan's `skippedDirectories`
counter (kept in a local variable by `scanForRepositories` and surfaced
through progress callbacks; `elapsedMs` is wall-clock time and is not
modelled). -/
structure ScanResult where
  directoriesScanned : Nat
  skippedDirectories : Nat
  repositoriesFound : Nat
  matchedRepositories : List MatchedRepository
  errors : List ScanError
deriving DecidableEq, Repr

/-- The empty aggregate `scanForRepositories` starts from. -/
def initScanResult : ScanResult :=
  { directoriesScanned := 0, skippedDirectories := 0, repositoriesFound := 0,
    matchedRepositories := [], errors := [] }

/-- The matching ternary of `scanForRepositories` (scanner.ts:236): the
custom pattern, when given, replaces username-based matching. -/
def matchedRemotesFor (oldUsername newUsername : String)
    (cp : Option CustomPattern) (engine : RegexEngine)
    (remotes : List GitRemote) : List MatchedRemote :=
  match cp with
  | some pat => findMatchingPatternCore engine remotes pat.fromPat pat.toPat
  | none => findMatchingCore remotes oldUsername newUsername

/-- The body of the `for await` loop of `scanForRepositories`
(scanner.ts:208): process one generator event.  On a `repo` event the
remotes are read (a read failure is caught as a scan error) and matched
with the custom pattern when one is given, else by username. -/
def scanStep (root : FSEntry) (oldUsername newUsername : String)
    (cp : Option CustomPattern) (engine : RegexEngine)
    (acc : ScanResult) (ev : ScanEvent) : ScanResult :=
  match ev with
  | .dirE => { acc with directoriesScanned := acc.directoriesScanned + 1 }
  | .skipE => { acc with skippedDirectories := acc.skippedDirectories + 1 }
  | .errorE p m => { acc with errors := acc.errors ++ [{ path := p, message := m }] }
  | .repoE p =>
    match getRemoteUrls root p with
    | .error m =>
      { acc with repositoriesFound := acc.repositoriesFound + 1,
                 errors := acc.errors ++ [{ path := p, message := m }] }
    | .ok remotes =>
      if (matchedRemotesFor oldUsername newUsername cp engine remotes).length > 0 then
        { acc with repositoriesFound := acc.repositoriesFound + 1,
                   matchedRepositories :=
            acc.matchedRepositories ++
              [{ path := p, remotes := remotes,
                 matchedRemotes :=
                   matchedRemotesFor oldUsername newUsername cp engine remotes }] }
      else { acc with repositoriesFound := acc.repositoriesFound + 1 }

/-- `scanForRepositories` (scanner.ts:174). -/
def scanForRepositories (root : FSEntry) (oldUsername newUsername : String)
    (maxDepth : Nat) (ab : Bool) (excl : List String)
    (cp : Option CustomPattern) (engine : RegexEngine) : ScanResult :=
  (scanDirectory root maxDepth ab excl).foldl
    (scanStep root oldUsername newUsername cp engine) initScanResult

/-! ## `src/core/logger.ts`: MigrationLogger -/

/-- `MigrationLogEntry` from `src/types.ts` (timestamps are wall-clock
and are not modelled). -/
structure MigrationLogEntry where
  repositoryPath : List String
  remoteName : String
  oldUrl : String
  newUrl : String
  success : Bool
  error : Option String
deriving DecidableEq, Repr

/-- The `summary` of a `MigrationLog`. -/
structure LogSummary where
  totalRepositories : Nat
  successfulMigrations : Nat
  failedMigrations : Nat
deriving DecidableEq, Repr

/-- The in-memory state of a `MigrationLogger` (logger.ts:108): its
entries and running summary (file-side effects are outside the model). -/
structure LoggerState where
  entries : List MigrationLogEntry
  summary : LogSummary
deriving DecidableEq, Repr

/-- The fresh log built by the `MigrationLogger` constructor
(logger.ts:113). -/
def initLogger : LoggerState :=
  { entries := [],
    summary := { totalRepositories := 0, successfulMigrations := 0,
                 failedMigrations := 0 } }

/-- `logSuccess` (logger.ts:155). -/
def logSuccess (st : LoggerState) (repositoryPath : List String)
    (remoteName oldUrl newUrl : String) : LoggerState :=
  { entries := st.entries ++
      [{ repositoryPath := repositoryPath, remoteName := remoteName,
         oldUrl := oldUrl, newUrl := newUrl, success := true, error := none }],
    summary := { st.summary with
      successfulMigrations := st.summary.successfulMigrations + 1,
      totalRepositories := st.summary.totalRepositories + 1 } }

/-- `logFailure` (logger.ts:173). -/
def logFailure (st : LoggerState) (repositoryPath : List String)
    (remoteName oldUrl newUrl error : String) : LoggerState :=
  { entries := st.entries ++
      [{ repositoryPath := repositoryPath, remoteName := remoteName,
         oldUrl := oldUrl, newUrl := newUrl, success := false,
         error := some error }],
    summary := { st.summary with
      failedMigrations := st.summary.failedMigrations + 1,
      totalRepositories := st.summary.totalRepositories + 1 } }

/-- One call made on a logger, for reasoning about arbitrary call
sequences. -/
inductive LogOp where
  | success (repositoryPath : List String) (remoteName oldUrl newUrl : String)
  | failure (repositoryPath : List String) (remoteName oldUrl newUrl error : String)

/-- Apply one logger call. -/
def applyLogOp (st : LoggerState) : LogOp → LoggerState
  | .success p rn ou nu => logSuccess st p rn ou nu
  | .failure p rn ou nu e => logFailure st p rn ou nu e

/-- Apply a sequence of logger calls. -/
def applyLogOps (st : LoggerState) : List LogOp → LoggerState
  | [] => st
  | op :: ops => applyLogOps (applyLogOp st op) ops

/-! ## `src/core/migrator.ts` -/

/-- The migrator's view of the filesystem: which repository paths have a
readable `.git/config`, and its content.  A path absent from the map is a
repository that no longer exists; reading it throws `ENOENT`. -/
def MigFS : Type := List (List String × String)

/-- `readFile(join(repoPath, '.git', 'config'))` in `setRemoteUrl`. -/
def migRead (fs : MigFS) (p : List String) : Except String String :=
  match fs.find? (fun kv => kv.1 = p) with
  | some kv => .ok kv.2
  | none => .error enoentMsg

/-- `writeFile` in `setRemoteUrl`: replace the stored content. -/
def migWrite (fs : MigFS) (p : List String) (content : String) : MigFS :=
  fs.map (fun kv => if kv.1 = p then (kv.1, content) else kv)

/-- `setRemoteUrl` (git-remote.ts:201): read the config, rewrite the
remote's url line, write it back. -/
def setRemoteUrl (fs : MigFS) (p : List String) (remoteName newUrl : String) :
    Except String MigFS :=
  (migRead fs p).map (fun content =>
    migWrite fs p (updateRemoteInConfig content remoteName newUrl))

/-- One element of `MigrationResult.results` from `src/types.ts`. -/
structure RemoteResult where
  remoteName : String
  oldUrl : String
  newUrl : String
  success : Bool
  error : Option String
deriving DecidableEq, Repr

/-- `MigrationResult` from `src/types.ts`. -/
structure MigrationResult where
  repository : MatchedRepository
  results : List RemoteResult
deriving DecidableEq, Repr

/-- The remote loop of `migrateRepository` (migrator.ts:48): apply each
matched remote in order; a throw from `setRemoteUrl` is caught, logged as
a failure, and the loop continues. -/
def migrateRemotes (fs : MigFS) (lg : LoggerState) (rpath : List String) :
    List MatchedRemote → MigFS × LoggerState × List RemoteResult
  | [] => (fs, lg, [])
  | mr :: rest =>
    match setRemoteUrl fs rpath mr.remote.name mr.newUrl with
    | .ok fs' =>
      let lg' := logSuccess lg rpath mr.remote.name mr.remote.url mr.newUrl
      let (fs'', lg'', rs) := migrateRemotes fs' lg' rpath rest
      (fs'', lg'',
        { remoteName := mr.remote.name, oldUrl := mr.remote.url,
          newUrl := mr.newUrl, success := true, error := none } :: rs)
    | .error msg =>
      let lg' := logFailure lg rpath mr.remote.name mr.remote.url mr.newUrl msg
      let (fs'', lg'', rs) := migrateRemotes fs lg' rpath rest
      (fs'', lg'',
        { remoteName := mr.remote.name, oldUrl := mr.remote.url,
          newUrl := mr.newUrl, success := false, error := some msg } :: rs)

/-- `migrateRepository` (migrator.ts:45). -/
def migrateRepository (fs : MigFS) (lg : LoggerState)
    (repository : MatchedRepository) : MigFS × LoggerState × MigrationResult :=
  let (fs', lg', rs) := migrateRemotes fs lg repository.path repository.matchedRemotes
  (fs', lg', { repository := repository, results := rs })

/-- The repository loop of `migrate` (migrator.ts:102); `ab` is the abort
signal checked before each repository. -/
def migrateList (fs : MigFS) (lg : LoggerState) (ab : Bool) :
    List MatchedRepository → MigFS × LoggerState × List MigrationResult
  | [] => (fs, lg, [])
  | repo :: rest =>
    if ab then (fs, lg, [])
    else
      let (fs', lg', r) := migrateRepository fs lg repo
      let (fs'', lg'', rs) := migrateList fs' lg' ab rest
      (fs'', lg'', r :: rs)

/-- `migrate` (migrator.ts:84): run the batch against a fresh logger. -/
def migrate (fs : MigFS) (repositories : List MatchedRepository) (ab : Bool) :
    MigFS × LoggerState × List MigrationResult :=
  migrateList fs initLogger ab repositories

/-- `dryRun` (migrator.ts:148): per-repository accessibility check and
non-empty-newUrl check, collecting human-readable issues. -/
def dryRun (fs : MigFS) (repositories : List MatchedRepository) : List String :=
  repositories.flatMap (fun repo =>
    match fs.find? (fun kv => kv.1 = repo.path) with
    | none => ["Repository not accessible"]
    | some _ =>
      repo.matchedRemotes.filterMap (fun mr =>
        if mr.newUrl = "" then some "Invalid new URL" else none))

/-! ## Constructions used in theorem statements -/

/-- The part of a GitHub-shaped URL after `<pre><owner>/` (the input to the
repo/extension match), for stating which URLs are excluded from the
round-trip property. -/
def shapeRest (pre url : List Char) : Option (List Char) :=
  if startsWithL pre url then
    match splitFirstSlash (url.drop pre.length) with
    | some (o, r) => if o = [] then none else some r
    | none => none
  else none

/-- `shapeRest` tried on the SSH shape, then the HTTPS shape. -/
def githubRest (url : String) : Option (List Char) :=
  match shapeRest sshPre url.toList with
  | some r => some r
  | none => shapeRest httpsPre url.toList


/-- A config with two `url` lines in one remote section. -/
def c1Config : String := "[remote \"origin\"]\nurl = a\nurl = b"

/-- The header line `[remote "<name>"]`. -/
def headerLineL (name : String) : List Char :=
  "[remote \"".toList ++ name.toList ++ "\"]".toList

/-- The line `url = <v>`. -/
def urlLineL (v : String) : List Char := "url = ".toList ++ v.toList

/-- A single remote section with one `url = <v>` line per element of `vs`. -/
def mkRemoteSection (name : String) (vs : List String) : String :=
  String.mk (joinLines (headerLineL name :: vs.map urlLineL))

/-- A url value in canonical form: nonempty, no line terminator, and no
leading or trailing whitespace (so that trimming and the `\s*` of the url
regex leave it unchanged). -/
def CleanValue (v : String) : Prop :=
  v ≠ "" ∧ v.toList.all jsDot = true ∧
    v.toList.head?.all (fun c => !isWs c) = true ∧
    v.toList.getLast?.all (fun c => !isWs c) = true

instance (v : String) : Decidable (CleanValue v) := by
  unfold CleanValue
  infer_instance

/-- Config used to exercise the rewriter: one target section with two url
lines and a second section. -/
def c4Config : String :=
  "[remote \"origin\"]\n\turl = old\n\turl = second\n[remote \"b\"]\n\turl = keep"

/-- A repository tree whose single remote is owned (case-insensitively)
by `ALICE`. -/
def c2Tree : FSEntry :=
  .dir "repo" [.dir ".git" [.file "config"
    "[remote \"origin\"]\n\turl = git@github.com:alice/repo.git"]]

/-- A regex engine that never matches (used where custom-pattern mode is
off). -/
def noMatchEngine : RegexEngine := fun _ _ => none

/-- A one-repository subtree used as scan-test payload. -/
def pkgRepo : FSEntry :=
  .dir "pkg" [.dir ".git" [.file "config"
    "[remote \"origin\"]\n\turl = git@github.com:alice/a.git"]]

/-- Scan roots that are themselves on the denylist, hidden, or matched by
an exclude glob. -/
def c10RootNm : FSEntry := .dir "node_modules" [pkgRepo]

def c10RootDot : FSEntry := .dir ".hidden" [pkgRepo]

def c10RootGlob : FSEntry := .dir "temp-root" [pkgRepo]

/-- A tree with one real project and one repository nested inside a
`node_modules` directory. -/
def c6Tree : FSEntry :=
  .dir "home"
    [.dir "proj" [.dir ".git" [.file "config"
        "[remote \"origin\"]\n\turl = git@github.com:alice/proj.git"]],
     .dir "node_modules" [pkgRepo]]

/-- Migration fixtures: three matched repositories, the middle one's path
no longer present in the filesystem. -/
def c7Remote : GitRemote :=
  { name := "origin", url := "git@github.com:alice/a.git" }

def c7Matched (p : List String) : MatchedRepository :=
  { path := p, remotes := [c7Remote],
    matchedRemotes := [{ remote := c7Remote,
                         newUrl := "git@github.com:carol/a.git" }] }

def c7Config : String := "[remote \"origin\"]\n\turl = git@github.com:alice/a.git"

def c7FS : MigFS := [(["p1"], c7Config), (["p3"], c7Config)]

def c7Repos : List MatchedRepository :=
  [c7Matched ["p1"], c7Matched ["gone"], c7Matched ["p3"]]

/-! ## Basic lemmas about lines and trimming -/

theorem mk_toList (s : String) : String.mk s.toList = s := rfl

theorem splitLines_ne_nil (l : List Char) : splitLines l ≠ [] := by
  cases l with
  | nil => simp [splitLines]
  | cons c cs =>
    simp only [splitLines]
    split
    · simp
    · cases h : splitLines cs <;> simp

theorem joinLines_cons_of_ne_nil (l : List Char) (ls : List (List Char))
    (h : ls ≠ []) : joinLines (l :: ls) = l ++ '\n' :: joinLines ls := by
  cases ls with
  | nil => exact absurd rfl h
  | cons a as => rfl

theorem joinLines_splitLines (l : List Char) : joinLines (splitLines l) = l := by
  induction l with
  | nil => rfl
  | cons c cs ih =>
    simp only [splitLines]
    by_cases hc : c = '\n'
    · subst hc
      rw [if_pos rfl]
      rw [joinLines_cons_of_ne_nil _ _ (splitLines_ne_nil cs), ih]
      rfl
    · rw [if_neg hc]
      cases h : splitLines cs with
      | nil => exact absurd h (splitLines_ne_nil cs)
      | cons a as =>
        rw [h] at ih
        have hj : joinLines ((c :: a) :: as) = c :: joinLines (a :: as) := by
          cases as <;> rfl
        rw [hj, ih]

theorem splitLines_of_no_nl (l : List Char) (h : '\n' ∉ l) :
    splitLines l = [l] := by
  induction l with
  | nil => rfl
  | cons c cs ih =>
    simp only [splitLines]
    rw [if_neg (by intro hc; exact h (hc ▸ List.mem_cons_self c cs))]
    rw [ih (fun hm => h (List.mem_cons_of_mem c hm))]

theorem splitLines_append_nl (x y : List Char) (h : '\n' ∉ x) :
    splitLines (x ++ '\n' :: y) = x :: splitLines y := by
  induction x with
  | nil => simp [splitLines]
  | cons c cs ih =>
    simp only [List.cons_append, splitLines, List.append_eq]
    rw [if_neg (by intro hc; exact h (hc ▸ List.mem_cons_self c cs))]
    rw [ih (fun hm => h (List.mem_cons_of_mem c hm))]

theorem splitLines_joinLines (ls : List (List Char)) (hne : ls ≠ [])
    (h : ∀ l ∈ ls, '\n' ∉ l) : splitLines (joinLines ls) = ls := by
  induction ls with
  | nil => exact absurd rfl hne
  | cons a as ih =>
    cases as with
    | nil => exact splitLines_of_no_nl a (h a (List.mem_cons_self a []))
    | cons b bs =>
      rw [joinLines_cons_of_ne_nil a (b :: bs) (by simp)]
      rw [splitLines_append_nl a _ (h a (List.mem_cons_self a _))]
      rw [ih (by simp) (fun l hl => h l (List.mem_cons_of_mem a hl))]

theorem dropWhile_eq_self_of_head {p : Char → Bool} (l : List Char)
    (h : ∀ c, l.head? = some c → p c = false) : l.dropWhile p = l := by
  cases l with
  | nil => rfl
  | cons a as => exact List.dropWhile_cons_of_neg (by simp [h a rfl])

theorem trimL_eq_self (l : List Char)
    (hh : ∀ c, l.head? = some c → isWs c = false)
    (hl : ∀ c, l.getLast? = some c → isWs c = false) : trimL l = l := by
  unfold trimL dropTrailingWs
  rw [dropWhile_eq_self_of_head l hh]
  rw [dropWhile_eq_self_of_head l.reverse
    (fun c hc => hl c (by rwa [List.head?_reverse] at hc))]
  exact List.reverse_reverse l

theorem takeWhile_append_stop {p : Char → Bool} (l1 : List Char) (c : Char)
    (l2 : List Char) (h1 : ∀ x ∈ l1, p x = true) (hc : p c = false) :
    (l1 ++ c :: l2).takeWhile p = l1 := by
  induction l1 with
  | nil => simp [List.takeWhile_cons, hc]
  | cons a as ih =>
    simp only [List.cons_append, List.takeWhile_cons,
      h1 a (List.mem_cons_self a as), if_true]
    rw [ih (fun x hx => h1 x (List.mem_cons_of_mem a hx))]

theorem dropWhile_append_stop {p : Char → Bool} (l1 : List Char) (c : Char)
    (l2 : List Char) (h1 : ∀ x ∈ l1, p x = true) (hc : p c = false) :
    (l1 ++ c :: l2).dropWhile p = c :: l2 := by
  induction l1 with
  | nil => simp [List.dropWhile_cons, hc]
  | cons a as ih =>
    simp only [List.cons_append, List.dropWhile_cons,
      h1 a (List.mem_cons_self a as), if_true]
    exact ih (fun x hx => h1 x (List.mem_cons_of_mem a hx))

theorem toList_ne_nil (s : String) (h : s ≠ "") : s.toList ≠ [] := by
  intro hn
  exact h (by rw [← mk_toList s, hn])

theorem headerName_mk (name : String) (h0 : name ≠ "") (hq : '"' ∉ name.toList) :
    headerName (headerLineL name) = some name := by
  have he : headerLineL name =
      '[' :: 'r' :: 'e' :: 'm' :: 'o' :: 't' :: 'e' :: ' ' :: '"' ::
        (name.toList ++ ['"', ']']) := rfl
  have htw : (' ' :: '"' :: (name.toList ++ ['"', ']'])).takeWhile isWs = [' '] := by
    simp [List.takeWhile_cons, isWs, Char.isWhitespace]
  have hdw : (' ' :: '"' :: (name.toList ++ ['"', ']'])).dropWhile isWs =
      '"' :: (name.toList ++ ['"', ']']) := by
    simp [List.dropWhile_cons, isWs, Char.isWhitespace]
  have hname : (name.toList ++ ['"', ']']).takeWhile (fun c => !(c = '"')) =
      name.toList :=
    takeWhile_append_stop _ _ _
      (fun x hx => by
        have hx' : x ≠ '"' := fun h => hq (h ▸ hx)
        simp [hx']) (by simp)
  have hrest : (name.toList ++ ['"', ']']).dropWhile (fun c => !(c = '"')) =
      '"' :: ']' :: [] :=
    dropWhile_append_stop _ _ _
      (fun x hx => by
        have hx' : x ≠ '"' := fun h => hq (h ▸ hx)
        simp [hx']) (by simp)
  have hne : ¬ name.data = [] := toList_ne_nil name h0
  have hmk : String.mk name.data = name := rfl
  rw [he]
  simp only [headerName, htw, hdw, hname, hrest]
  simp [hne, hmk]

theorem toList_mk (l : List Char) : (String.mk l).toList = l := rfl

theorem trim_headerLine (name : String) : trimL (headerLineL name) = headerLineL name := by
  apply trimL_eq_self
  · intro c hc
    have : (headerLineL name).head? = some '[' := rfl
    rw [this] at hc
    cases hc
    decide
  · intro c hc
    have he : headerLineL name = ("[remote \"".toList ++ name.toList) ++ ['"', ']'] := by
      simp [headerLineL, List.append_assoc]
    rw [he, List.getLast?_append_of_ne_nil _ (by simp)] at hc
    cases hc
    decide

theorem urlLine_head? (v : String) : (urlLineL v).head? = some 'u' := rfl

theorem trim_urlLine (v : String) (hne : v.toList ≠ [])
    (hl : ∀ c, v.toList.getLast? = some c → isWs c = false) :
    trimL (urlLineL v) = urlLineL v := by
  apply trimL_eq_self
  · intro c hc
    rw [urlLine_head?] at hc
    cases hc
    decide
  · intro c hc
    rw [show urlLineL v = "url = ".toList ++ v.toList from rfl,
      List.getLast?_append_of_ne_nil _ hne] at hc
    exact hl c hc

theorem headerName_urlLine (v : String) : headerName (urlLineL v) = none := rfl

theorem parseUrlValue_urlLine (v : String) (hne : v.toList ≠ [])
    (hh : ∀ c, v.toList.head? = some c → isWs c = false)
    (hall : v.toList.all jsDot) :
    parseUrlValue (urlLineL v) = some v.toList := by
  have he : urlLineL v = 'u' :: 'r' :: 'l' :: (' ' :: '=' :: ' ' :: v.toList) := rfl
  have hdw : (' ' :: '=' :: ' ' :: v.toList).dropWhile isWs =
      '=' :: ' ' :: v.toList := by
    simp [List.dropWhile_cons, isWs, Char.isWhitespace]
  have hr0 : (' ' :: v.toList).dropWhile isWs = v.toList := by
    rw [List.dropWhile_cons_of_pos (by simp [isWs, Char.isWhitespace])]
    exact dropWhile_eq_self_of_head v.toList hh
  have hne' : ¬ v.data = [] := hne
  have hall' : ∀ x ∈ v.data, jsDot x = true := List.all_eq_true.mp hall
  rw [he]
  simp only [parseUrlValue, hdw, matchValueCapture, hr0]
  simp [hne']
  exact hall'

theorem parseLines_urlLines (name : String) (vs : List String)
    (hv : ∀ v ∈ vs, CleanValue v) :
    parseLines (vs.map urlLineL) (some name) =
      vs.map (fun v => { name := name, url := v }) := by
  induction vs with
  | nil => rfl
  | cons v rest ih =>
    obtain ⟨h1, h2, h3, h4⟩ := hv v (List.mem_cons_self v rest)
    replace h3 : ∀ c, v.toList.head? = some c → isWs c = false := by
      intro c hc; rw [hc] at h3; simpa using h3
    replace h4 : ∀ c, v.toList.getLast? = some c → isWs c = false := by
      intro c hc; rw [hc] at h4; simpa using h4
    have hne : v.toList ≠ [] := toList_ne_nil v h1
    simp only [List.map_cons, parseLines, trim_urlLine v hne h4,
      headerName_urlLine, urlLine_head?, parseUrlValue_urlLine v hne h3 h2]
    rw [if_neg (by decide)]
    rw [trimL_eq_self v.toList h3 h4]
    rw [ih (fun w hw => hv w (List.mem_cons_of_mem v hw))]
    rfl

/-- The section builder splits back into its lines. -/
theorem splitLines_mkRemoteSection (name : String) (vs : List String)
    (hnl : '\n' ∉ name.toList) (hv : ∀ v ∈ vs, CleanValue v) :
    splitLines (mkRemoteSection name vs).toList =
      headerLineL name :: vs.map urlLineL := by
  rw [mkRemoteSection, toList_mk]
  apply splitLines_joinLines _ (by simp)
  intro l hl
  rcases List.mem_cons.mp hl with h | h
  · subst h
    intro hmem
    rcases List.mem_append.mp hmem with h' | h'
    · rcases List.mem_append.mp h' with h'' | h''
      · revert h''
        decide
      · exact hnl h''
    · revert h'
      decide
  · obtain ⟨v, hvmem, rfl⟩ := List.mem_map.mp h
    obtain ⟨_, h2, _, _⟩ := hv v hvmem
    intro hmem
    rcases List.mem_append.mp hmem with h' | h'
    · revert h'
      decide
    · have := List.all_eq_true.mp h2 '\n' h'
      revert this
      decide

/-! ## Claim C1: parseGitConfig and multiple url lines -/

/-- C1 counterexample: on a section with two `url =` lines,
`parseGitConfig` records *both* — the claimed first-match policy (only
`[{origin, a}]`) does not hold. -/
theorem c1_counterexample :
    parseGitConfig c1Config =
      [{ name := "origin", url := "a" }, { name := "origin", url := "b" }] ∧
    parseGitConfig c1Config ≠ [{ name := "origin", url := "a" }] := by
  constructor
  · decide
  · decide

/-- C1 (amended): while inside a `[remote "<name>"]` section,
`parseGitConfig` records **every** `url =` line, in order, each as a
Remote named by the section — later `url =` lines are not ignored; there
is no first-match policy in the parser. -/
theorem c1_every_url_line_recorded (name : String) (vs : List String)
    (h0 : name ≠ "") (hq : '"' ∉ name.toList) (hnl : '\n' ∉ name.toList)
    (hv : ∀ v ∈ vs, CleanValue v) :
    parseGitConfig (mkRemoteSection name vs) =
      vs.map (fun v => { name := name, url := v }) := by
  unfold parseGitConfig
  rw [splitLines_mkRemoteSection name vs hnl hv]
  simp only [parseLines, trim_headerLine name, headerName_mk name h0 hq]
  exact parseLines_urlLines name vs hv

/-- C1 witness: the amended statement at a concrete section with two url
lines. -/
theorem c1_every_url_line_recorded_witness :
    parseGitConfig (mkRemoteSection "origin" ["a", "b"]) =
      [{ name := "origin", url := "a" }, { name := "origin", url := "b" }] :=
  c1_every_url_line_recorded "origin" ["a", "b"]
    (by decide) (by decide) (by decide) (by decide)

/-! ## Claim C4: updateRemoteInConfig -/

theorem rawUrlMatch_indent (l indent : List Char) (h : rawUrlMatch l = some indent) :
    indent = l.takeWhile isWs := by
  unfold rawUrlMatch at h
  rcases hd : l.dropWhile isWs with _ | ⟨c, rest⟩ <;> rw [hd] at h
  · simp at h
  · revert h
    split <;> intro h <;> simp at h
    rcases hr : List.dropWhile isWs _ with _ | ⟨c2, rest2⟩ <;> rw [hr] at h
    · simp at h
    · revert h
      split <;> intro h
      · rcases hm : matchValueCapture _ with _ | cap <;> rw [hm] at h <;>
          simp at h
        exact h.symm
      · simp at h

theorem updateLines_done (rn nu : String) (ls : List (List Char)) (inT : Bool) :
    updateLines rn nu ls inT true = ls := by
  induction ls generalizing inT with
  | nil => rfl
  | cons l ls ih =>
    simp only [updateLines]
    rcases hh : headerName (trimL l) with _ | n <;> simp only [hh]
    · by_cases hb : (trimL l).head? = some '['
      · rw [if_pos hb, ih]
      · rw [if_neg hb]
        simp [ih]
    · rw [ih]

/-- One pass-through step of the rewriter/index correspondence. -/
theorem updateLines_char_step (rn nu : String) (l : List Char)
    (ls : List (List Char)) (s : Bool)
    (hrec : (findTargetUrlIdx rn ls s = none →
        updateLines rn nu ls s false = ls) ∧
      (∀ i, findTargetUrlIdx rn ls s = some i →
        ∃ w, ls.get? i = some w ∧ (rawUrlMatch w).isSome = true ∧
          updateLines rn nu ls s false =
            ls.set i (w.takeWhile isWs ++ ("url = " ++ nu).toList))) :
    ((findTargetUrlIdx rn ls s).map (· + 1) = none →
      l :: updateLines rn nu ls s false = l :: ls) ∧
    (∀ i, (findTargetUrlIdx rn ls s).map (· + 1) = some i →
      ∃ w, (l :: ls).get? i = some w ∧ (rawUrlMatch w).isSome = true ∧
        l :: updateLines rn nu ls s false =
          (l :: ls).set i (w.takeWhile isWs ++ ("url = " ++ nu).toList)) := by
  constructor
  · intro hn
    rcases hfi : findTargetUrlIdx rn ls s with _ | j
    · rw [hrec.1 hfi]
    · rw [hfi] at hn
      simp at hn
  · intro i hi
    rcases hfi : findTargetUrlIdx rn ls s with _ | j
    · rw [hfi] at hi
      simp at hi
    · rw [hfi] at hi
      have hj : j + 1 = i := by simpa using hi
      subst hj
      obtain ⟨w, hw1, hw2, hw3⟩ := hrec.2 j hfi
      exact ⟨w, hw1, hw2, by rw [hw3, List.set_cons_succ]⟩

theorem updateLines_characterization (rn nu : String) (ls : List (List Char))
    (inT : Bool) :
    (findTargetUrlIdx rn ls inT = none → updateLines rn nu ls inT false = ls) ∧
    (∀ i, findTargetUrlIdx rn ls inT = some i →
      ∃ w, ls.get? i = some w ∧ (rawUrlMatch w).isSome = true ∧
        updateLines rn nu ls inT false =
          ls.set i (w.takeWhile isWs ++ ("url = " ++ nu).toList)) := by
  induction ls generalizing inT with
  | nil =>
    exact ⟨fun _ => rfl, fun i h => by simp [findTargetUrlIdx] at h⟩
  | cons l ls ih =>
    simp only [updateLines, findTargetUrlIdx]
    rcases hh : headerName (trimL l) with _ | n <;> simp only [hh]
    · by_cases hb : (trimL l).head? = some '['
      · simp only [if_pos hb]
        exact updateLines_char_step rn nu l ls false (ih false)
      · simp only [if_neg hb]
        cases inT with
        | false =>
          simp only [Bool.false_and, Bool.false_eq_true, if_false]
          exact updateLines_char_step rn nu l ls false (ih false)
        | true =>
          simp only [Bool.true_and, Bool.not_false, if_true]
          rcases hm : rawUrlMatch l with _ | indent <;> simp only [hm]
          · exact updateLines_char_step rn nu l ls true (ih true)
          · constructor
            · intro hn
              simp at hn
            · intro i hi
              have h0 : i = 0 := by simpa using hi.symm
              subst h0
              refine ⟨l, rfl, by simp [hm], ?_⟩
              rw [updateLines_done]
              rw [rawUrlMatch_indent l indent hm, List.set_cons_zero]
    · exact updateLines_char_step rn nu l ls (n = rn) (ih (n = rn))

/-- C4: `updateRemoteInConfig` rewrites exactly the line identified by
`findTargetUrlIdx` — the first url line inside the section named
`remoteName`.  If there is none, the output is exactly the input; else the
output is the input with only that line replaced, and the replacement
keeps the line's original leading whitespace, so every other line is
byte-for-byte unchanged. -/
theorem c4_updateRemoteInConfig_targeted (c rn nu : String) :
    (findTargetUrlIdx rn (splitLines c.toList) false = none →
      updateRemoteInConfig c rn nu = c) ∧
    (∀ i, findTargetUrlIdx rn (splitLines c.toList) false = some i →
      ∃ l, (splitLines c.toList).get? i = some l ∧ (rawUrlMatch l).isSome = true ∧
        updateRemoteInConfig c rn nu =
          String.mk (joinLines ((splitLines c.toList).set i
            (l.takeWhile isWs ++ ("url = " ++ nu).toList)))) := by
  have hchar := updateLines_characterization rn nu (splitLines c.toList) false
  constructor
  · intro hn
    unfold updateRemoteInConfig
    rw [hchar.1 hn, joinLines_splitLines, mk_toList]
  · intro i hi
    obtain ⟨l, hl1, hl2, hl3⟩ := hchar.2 i hi
    refine ⟨l, hl1, hl2, ?_⟩
    unfold updateRemoteInConfig
    rw [hl3]

/-- C4 witness: a concrete config where the first url line of `origin` is
rewritten with its tab preserved and everything else — including the
second url line of the same section and the other section — untouched. -/
theorem c4_updateRemoteInConfig_targeted_witness :
    updateRemoteInConfig c4Config "origin" "NEW" =
      "[remote \"origin\"]\n\turl = NEW\n\turl = second\n[remote \"b\"]\n\turl = keep" := by
  obtain ⟨l, hl, _, heq⟩ :=
    (c4_updateRemoteInConfig_targeted c4Config "origin" "NEW").2 1 (by decide)
  have hle : l = "\turl = old".toList := by
    have hc : (splitLines c4Config.toList).get? 1 = some ("\turl = old".toList) := by
      decide
    rw [hc] at hl
    exact (Option.some.inj hl).symm
  rw [heq, hle]
  decide

/-! ## Lemmas about the GitHub URL matchers -/

theorem startsWithL_self_append (p t : List Char) :
    startsWithL p (p ++ t) = true := by
  induction p with
  | nil => rfl
  | cons c cs ih => simp [startsWithL, ih]

theorem startsWithL_drop (p : List Char) : ∀ s : List Char,
    startsWithL p s = true → s = p ++ s.drop p.length := by
  induction p with
  | nil => intro s _; rfl
  | cons c cs ih =>
    intro s h
    cases s with
    | nil => simp [startsWithL] at h
    | cons a as =>
      simp only [startsWithL, Bool.and_eq_true, decide_eq_true_eq] at h
      obtain ⟨rfl, h2⟩ := h
      simpa using ih as h2

theorem splitFirstSlash_append (o r : List Char) (ho : '/' ∉ o) :
    splitFirstSlash (o ++ '/' :: r) = some (o, r) := by
  induction o with
  | nil => simp [splitFirstSlash]
  | cons c cs ih =>
    have hc : ¬ c = '/' := fun h => ho (h ▸ List.mem_cons_self c cs)
    simp only [List.cons_append, splitFirstSlash, if_neg hc, List.append_eq]
    rw [ih (fun hm => ho (List.mem_cons_of_mem c hm))]
    rfl

theorem splitFirstSlash_eq : ∀ (s o r : List Char),
    splitFirstSlash s = some (o, r) → s = o ++ '/' :: r ∧ '/' ∉ o := by
  intro s
  induction s with
  | nil => intro o r h; simp [splitFirstSlash] at h
  | cons c cs ih =>
    intro o r h
    simp only [splitFirstSlash] at h
    by_cases hc : c = '/'
    · rw [if_pos hc] at h
      injection h with h2
      obtain ⟨h3, h4⟩ := Prod.mk.inj h2
      subst hc
      subst h4
      rw [← h3]
      exact ⟨rfl, by simp⟩
    · rw [if_neg hc] at h
      rcases hs : splitFirstSlash cs with _ | ⟨o', r'⟩ <;> rw [hs] at h
      · simp at h
      · simp only [Option.map_some'] at h
        injection h with h2
        obtain ⟨ho, hr⟩ := Prod.mk.inj h2
        obtain ⟨hcs, hno⟩ := ih o' r' hs
        subst hr
        rw [← ho, hcs]
        refine ⟨rfl, ?_⟩
        intro hm
        rcases List.mem_cons.mp hm with h1 | h1
        · exact hc h1.symm
        · exact hno h1

/-- `".git"` as a character list. -/
theorem gitL_eq : ".git".toList = ['.', 'g', 'i', 't'] := rfl

theorem endsGit_iff (s : List Char) :
    endsGit s = true ↔ ['.', 'g', 'i', 't'] <:+ s := by
  unfold endsGit
  exact List.isSuffixOf_iff_suffix

theorem endsGit_append_git (x : List Char) :
    endsGit (x ++ ['.', 'g', 'i', 't']) = true :=
  (endsGit_iff _).mpr (List.suffix_append x _)

theorem slash_not_mem_git : '/' ∉ (['.', 'g', 'i', 't'] : List Char) := by
  decide

theorem endsGit_append_slash (x r : List Char) :
    endsGit (x ++ '/' :: r) = endsGit r := by
  rcases hr : endsGit r with _ | _
  · rcases hx : endsGit (x ++ '/' :: r) with _ | _
    · rfl
    · exfalso
      have hsuf := (endsGit_iff _).mp hx
      have hsl : '/' :: r <:+ x ++ '/' :: r := List.suffix_append x _
      rcases List.suffix_or_suffix_of_suffix hsuf hsl with h | h
      · rcases List.suffix_cons_iff.mp h with h1 | h1
        · exact slash_not_mem_git (h1 ▸ List.mem_cons_self '/' r)
        · have h2 : endsGit r = true := (endsGit_iff r).mpr h1
          rw [hr] at h2
          simp at h2
      · exact slash_not_mem_git (h.sublist.subset (List.mem_cons_self '/' r))
  · have h2 : endsGit (x ++ '/' :: r) = true :=
      (endsGit_iff _).mpr
        ((((endsGit_iff r).mp hr).trans (List.suffix_cons '/' r)).trans
          (List.suffix_append x ('/' :: r)))
    exact h2

theorem endsGit_decomp (s : List Char) (h : endsGit s = true) :
    s = s.take (s.length - 4) ++ ['.', 'g', 'i', 't'] := by
  obtain ⟨x, hx⟩ := (endsGit_iff s).mp h
  rw [← hx]
  have h4 : (x ++ ['.', 'g', 'i', 't']).length - 4 = x.length := by simp
  rw [h4, List.take_left]

theorem matchRepoExt_git (repo : List Char) (h1 : repo ≠ [])
    (h2 : repo.all jsDot = true) :
    matchRepoExt (repo ++ ['.', 'g', 'i', 't']) = some repo := by
  unfold matchRepoExt
  have hstem : (repo ++ ['.', 'g', 'i', 't']).take
      ((repo ++ ['.', 'g', 'i', 't']).length - 4) = repo := by
    have h4 : (repo ++ ['.', 'g', 'i', 't']).length - 4 = repo.length := by simp
    rw [h4, List.take_left]
  rw [hstem, endsGit_append_git]
  simp [h1, h2]

theorem matchRepoExt_inv (r repo : List Char) (h : matchRepoExt r = some repo) :
    (r = repo ++ ['.', 'g', 'i', 't'] ∧ endsGit r = true ∧ repo ≠ [] ∧
      repo.all jsDot = true) ∨
    (repo = r ∧ endsGit r = false ∧ r ≠ [] ∧ r.all jsDot = true) ∨
    (repo = r ∧ r = ['.', 'g', 'i', 't']) := by
  unfold matchRepoExt at h
  by_cases hc1 : (endsGit r && decide (List.take (r.length - 4) r ≠ []) &&
      (List.take (r.length - 4) r).all jsDot) = true
  · rw [if_pos hc1] at h
    simp only [Bool.and_eq_true, decide_eq_true_eq] at hc1
    obtain ⟨⟨hg, hne⟩, hall⟩ := hc1
    left
    have hr := endsGit_decomp r hg
    injection h with h2
    rw [← h2]
    exact ⟨hr, hg, hne, hall⟩
  · rw [if_neg hc1] at h
    by_cases hc2 : (decide (r ≠ []) && r.all jsDot) = true
    · rw [if_pos hc2] at h
      simp only [Bool.and_eq_true, decide_eq_true_eq] at hc2
      obtain ⟨hne, hall⟩ := hc2
      injection h with h2
      rcases hg : endsGit r with _ | _
      · exact Or.inr (Or.inl ⟨h2.symm, rfl, hne, hall⟩)
      · right; right
        refine ⟨h2.symm, ?_⟩
        have hstemall : (r.take (r.length - 4)).all jsDot = true := by
          rw [List.all_eq_true] at hall ⊢
          exact fun c hc => hall c (List.take_subset _ r hc)
        have hstem : r.take (r.length - 4) = [] := by
          by_contra hne'
          exact hc1 (by simp [hg, hne', hstemall])
        have hdec := endsGit_decomp r hg
        rw [hstem] at hdec
        simpa using hdec
    · rw [if_neg hc2] at h
      simp at h

theorem matchRepoExt_isSome_tail (r repo : List Char)
    (h : matchRepoExt r = some repo) :
    repo ++ (if endsGit r = true then ['.', 'g', 'i', 't'] else []) = r ∨
    (r = ['.', 'g', 'i', 't'] ∧ repo = r) := by
  rcases matchRepoExt_inv r repo h with ⟨he, hg, _, _⟩ | ⟨he, hg, _, _⟩ | ⟨he, hg⟩
  · left; rw [hg, if_pos rfl, he]
  · left; rw [hg]; simp [he]
  · right; exact ⟨hg, he⟩

theorem matchGitHub_build (pre o r : List Char) (ho : '/' ∉ o) (hne : o ≠ []) :
    matchGitHub pre (pre ++ (o ++ '/' :: r)) =
      (matchRepoExt r).map (fun repo => (o, repo)) := by
  unfold matchGitHub
  rw [if_pos (startsWithL_self_append pre _)]
  rw [List.drop_left pre _]
  rw [splitFirstSlash_append o r ho]
  simp [hne]

theorem matchGitHub_inv (pre u o repo : List Char)
    (h : matchGitHub pre u = some (o, repo)) :
    ∃ r, u = pre ++ (o ++ '/' :: r) ∧ '/' ∉ o ∧ o ≠ [] ∧
      matchRepoExt r = some repo := by
  unfold matchGitHub at h
  by_cases hs : startsWithL pre u = true
  · rw [if_pos hs] at h
    rcases hsp : splitFirstSlash (u.drop pre.length) with _ | ⟨o', r'⟩ <;>
      simp only [hsp] at h
    · simp at h
    · by_cases ho' : o' = []
      · rw [if_pos ho'] at h
        simp at h
      · rw [if_neg ho'] at h
        rcases hm : matchRepoExt r' with _ | repo' <;> rw [hm] at h
        · simp at h
        · simp only [Option.map_some'] at h
          injection h with h2
          obtain ⟨h3, h4⟩ := Prod.mk.inj h2
          subst h3
          subst h4
          obtain ⟨hd, hno⟩ := splitFirstSlash_eq _ _ _ hsp
          refine ⟨r', ?_, hno, ho', hm⟩
          rw [← hd]
          exact startsWithL_drop pre u hs
  · rw [if_neg hs] at h
    simp at h

theorem matchGitHub_not_starts (pre u : List Char)
    (h : startsWithL pre u = false) : matchGitHub pre u = none := by
  unfold matchGitHub
  rw [h]
  simp

theorem ssh_not_https (x : List Char) :
    startsWithL sshPre (httpsPre ++ x) = false := rfl

theorem https_not_ssh (x : List Char) :
    startsWithL httpsPre (sshPre ++ x) = false := rfl

theorem extract_build (X : String) (pre r repo : List Char)
    (hpre : pre = sshPre ∨ pre = httpsPre)
    (hX1 : X ≠ "") (hX2 : '/' ∉ X.toList) (hrepo : matchRepoExt r = some repo) :
    extractGitHubUsername (String.mk (pre ++ (X.toList ++ '/' :: r))) = some X := by
  rcases hpre with rfl | rfl
  · simp only [extractGitHubUsername, toList_mk,
      matchGitHub_build sshPre X.toList r hX2 (toList_ne_nil X hX1), hrepo,
      Option.map_some', mk_toList]
  · have h1 : matchGitHub sshPre (httpsPre ++ (X.toList ++ '/' :: r)) = none :=
      matchGitHub_not_starts _ _ (ssh_not_https _)
    simp only [extractGitHubUsername, toList_mk, h1,
      matchGitHub_build httpsPre X.toList r hX2 (toList_ne_nil X hX1), hrepo,
      Option.map_some', mk_toList]

theorem replaceViaShape_eval (A old B : String) (pre r repo : List Char)
    (hA1 : A ≠ "") (hA2 : '/' ∉ A.toList)
    (hci : toLowerL A.toList = toLowerL old.toList)
    (hrepo : matchRepoExt r = some repo) :
    replaceViaShape pre (String.mk (pre ++ (A.toList ++ '/' :: r))) old B =
      some (String.mk (pre ++ (B.toList ++ '/' ::
        (repo ++ (if endsGit r = true then ['.', 'g', 'i', 't'] else []))))) := by
  have hsuf : hasGitSuffix (String.mk (pre ++ (A.toList ++ '/' :: r))) = endsGit r := by
    unfold hasGitSuffix
    rw [toList_mk, ← List.append_assoc, endsGit_append_slash]
  simp only [replaceViaShape, toList_mk,
    matchGitHub_build pre A.toList r hA2 (toList_ne_nil A hA1), hrepo,
    Option.map_some']
  rw [if_pos hci]
  rw [hsuf]
  congr 1
  congr 1
  rcases endsGit r with _ | _ <;> simp [List.append_assoc, gitL_eq]

theorem replaceViaShape_none (pre' : List Char) (u old B : String)
    (h : matchGitHub pre' u.toList = none) : replaceViaShape pre' u old B = none := by
  simp only [replaceViaShape, h]

theorem replace_eval (A old B : String) (pre r repo : List Char)
    (hpre : pre = sshPre ∨ pre = httpsPre) (hA1 : A ≠ "") (hA2 : '/' ∉ A.toList)
    (hci : toLowerL A.toList = toLowerL old.toList)
    (hrepo : matchRepoExt r = some repo) :
    replaceGitHubUsername (String.mk (pre ++ (A.toList ++ '/' :: r))) old B =
      String.mk (pre ++ (B.toList ++ '/' ::
        (repo ++ (if endsGit r = true then ['.', 'g', 'i', 't'] else [])))) := by
  rcases hpre with rfl | rfl
  · simp only [replaceGitHubUsername,
      replaceViaShape_eval A old B sshPre r repo hA1 hA2 hci hrepo]
  · have h1 : replaceViaShape sshPre
        (String.mk (httpsPre ++ (A.toList ++ '/' :: r))) old B = none :=
      replaceViaShape_none sshPre _ old B
        (by rw [toList_mk]; exact matchGitHub_not_starts _ _ (ssh_not_https _))
    simp only [replaceGitHubUsername, h1,
      replaceViaShape_eval A old B httpsPre r repo hA1 hA2 hci hrepo]

theorem extract_decomp (url A : String) (h : extractGitHubUsername url = some A) :
    ∃ pre r repo, (pre = sshPre ∨ pre = httpsPre) ∧
      url = String.mk (pre ++ (A.toList ++ '/' :: r)) ∧
      matchRepoExt r = some repo ∧ '/' ∉ A.toList ∧ A ≠ "" := by
  have hAtl : ∀ o : List Char, String.mk o = A → A.toList = o := by
    intro o ho
    rw [← ho, toList_mk]
  have hAne : ∀ o : List Char, String.mk o = A → o ≠ [] → A ≠ "" := by
    intro o ho hne hA
    apply hne
    rw [hA] at ho
    have := congrArg String.toList ho
    simpa [toList_mk] using this
  unfold extractGitHubUsername at h
  rcases hm : matchGitHub sshPre url.toList with _ | ⟨o, repo⟩ <;>
    simp only [hm] at h
  · rcases hm2 : matchGitHub httpsPre url.toList with _ | ⟨o, repo⟩ <;>
      simp only [hm2] at h
    · exact absurd h (by simp)
    · injection h with h2
      obtain ⟨r, hu, hno, hne, hrep⟩ := matchGitHub_inv _ _ _ _ hm2
      refine ⟨httpsPre, r, repo, Or.inr rfl, ?_, hrep, ?_, hAne o h2 hne⟩
      · rw [hAtl o h2, ← hu, mk_toList]
      · rw [hAtl o h2]; exact hno
  · injection h with h2
    obtain ⟨r, hu, hno, hne, hrep⟩ := matchGitHub_inv _ _ _ _ hm
    refine ⟨sshPre, r, repo, Or.inl rfl, ?_, hrep, ?_, hAne o h2 hne⟩
    · rw [hAtl o h2, ← hu, mk_toList]
    · rw [hAtl o h2]; exact hno

theorem shapeRest_build (pre o r : List Char) (ho : '/' ∉ o) (hne : o ≠ []) :
    shapeRest pre (pre ++ (o ++ '/' :: r)) = some r := by
  unfold shapeRest
  rw [if_pos (startsWithL_self_append pre _)]
  rw [List.drop_left pre _]
  rw [splitFirstSlash_append o r ho]
  simp [hne]

theorem shapeRest_not_starts (pre u : List Char)
    (h : startsWithL pre u = false) : shapeRest pre u = none := by
  unfold shapeRest
  rw [h]
  simp

theorem githubRest_build (X : String) (pre r : List Char)
    (hpre : pre = sshPre ∨ pre = httpsPre)
    (hX1 : X ≠ "") (hX2 : '/' ∉ X.toList) :
    githubRest (String.mk (pre ++ (X.toList ++ '/' :: r))) = some r := by
  rcases hpre with rfl | rfl
  · simp only [githubRest, toList_mk,
      shapeRest_build sshPre X.toList r hX2 (toList_ne_nil X hX1)]
  · have h1 : shapeRest sshPre (httpsPre ++ (X.toList ++ '/' :: r)) = none :=
      shapeRest_not_starts _ _ (ssh_not_https _)
    simp only [githubRest, toList_mk, h1,
      shapeRest_build httpsPre X.toList r hX2 (toList_ne_nil X hX1)]

theorem repoExt_tail_eq (r repo : List Char) (hrepo : matchRepoExt r = some repo)
    (hrg : r ≠ ['.', 'g', 'i', 't']) :
    repo ++ (if endsGit r = true then ['.', 'g', 'i', 't'] else []) = r := by
  rcases matchRepoExt_isSome_tail r repo hrepo with h | ⟨h1, _⟩
  · exact h
  · exact absurd h1 hrg

theorem hasGitSuffix_shape (X : String) (pre r : List Char) :
    hasGitSuffix (String.mk (pre ++ (X.toList ++ '/' :: r))) = endsGit r := by
  unfold hasGitSuffix
  rw [toList_mk, ← List.append_assoc, endsGit_append_slash]

/-! ## Claim C5: the extract/rename round trip -/

/-- C5 counterexample: for the recognized URL `git@github.com:alice/.git`
(owner `alice`, repository part literally `.git`), renaming
`alice → bob → alice` does not restore the original URL (it grows a
second `.git`); and for a replacement owner containing `/`, extraction
after renaming does not return that owner. -/
theorem c5_counterexample :
    extractGitHubUsername "git@github.com:alice/.git" = some "alice" ∧
    ("alice" : String) ≠ "bob" ∧
    replaceGitHubUsername
        (replaceGitHubUsername "git@github.com:alice/.git" "alice" "bob")
        "bob" "alice" ≠ "git@github.com:alice/.git" ∧
    extractGitHubUsername
        (replaceGitHubUsername "git@github.com:alice/repo.git" "alice" "b/c") ≠
      some "b/c" := by
  refine ⟨by decide, by decide, by decide, by decide⟩

/-- C5 (amended): for every URL recognized in the SSH-like or HTTPS-like
GitHub shape with owner `A` — provided the part after `owner/` is not
literally `.git` — and every `B` with `A ≠ B` that is nonempty and
slash-free, `extractGitHubUsername (replaceGitHubUsername url A B) = B`,
re-applying `replaceGitHubUsername` with `B, A` restores `url` exactly,
and the presence of the `.git` suffix is preserved. -/
theorem c5_round_trip (url A B : String)
    (hrec : extractGitHubUsername url = some A)
    (hB1 : B ≠ "") (hB2 : '/' ∉ B.toList) (_hAB : A ≠ B)
    (hrg : githubRest url ≠ some ['.', 'g', 'i', 't']) :
    extractGitHubUsername (replaceGitHubUsername url A B) = some B ∧
    replaceGitHubUsername (replaceGitHubUsername url A B) B A = url ∧
    hasGitSuffix (replaceGitHubUsername url A B) = hasGitSuffix url := by
  obtain ⟨pre, r, repo, hpre, hurl, hrepo, hno, hAne⟩ := extract_decomp url A hrec
  have hr : r ≠ ['.', 'g', 'i', 't'] := by
    intro hcon
    apply hrg
    rw [hurl, githubRest_build A pre r hpre hAne hno, hcon]
  have htail := repoExt_tail_eq r repo hrepo hr
  subst hurl
  rw [replace_eval A A B pre r repo hpre hAne hno rfl hrepo, htail]
  refine ⟨extract_build B pre r repo hpre hB1 hB2 hrepo, ?_, ?_⟩
  · rw [replace_eval B B A pre r repo hpre hB1 hB2 rfl hrepo, htail]
  · rw [hasGitSuffix_shape B pre r, hasGitSuffix_shape A pre r]

/-- C5 witness: the amended round trip at
`git@github.com:alice/repo.git`, `alice → bob → alice`. -/
theorem c5_round_trip_witness :
    extractGitHubUsername
        (replaceGitHubUsername "git@github.com:alice/repo.git" "alice" "bob") =
      some "bob" ∧
    replaceGitHubUsername
        (replaceGitHubUsername "git@github.com:alice/repo.git" "alice" "bob")
        "bob" "alice" = "git@github.com:alice/repo.git" ∧
    hasGitSuffix
        (replaceGitHubUsername "git@github.com:alice/repo.git" "alice" "bob") =
      hasGitSuffix "git@github.com:alice/repo.git" :=
  c5_round_trip "git@github.com:alice/repo.git" "alice" "bob"
    (by decide) (by decide) (by decide) (by decide) (by decide)

/-! ## Claim C2: no-op matches in findMatchingRemotes -/

theorem firstSlash_decomp (B : List Char) (h : '/' ∈ B) :
    ∃ b1 b2, B = b1 ++ '/' :: b2 ∧ '/' ∉ b1 := by
  induction B with
  | nil => simp at h
  | cons c bs ih =>
    by_cases hc : c = '/'
    · exact ⟨[], bs, by rw [hc]; simp, by simp⟩
    · have hm : '/' ∈ bs := by
        rcases List.mem_cons.mp h with h1 | h1
        · exact absurd h1.symm hc
        · exact h1
      obtain ⟨b1, b2, he, hb1⟩ := ih hm
      refine ⟨c :: b1, b2, by rw [List.cons_append, ← he], ?_⟩
      intro hmem
      rcases List.mem_cons.mp hmem with h1 | h1
      · exact hc h1.symm
      · exact hb1 h1

theorem append_slash_inj : ∀ (a b x y : List Char), '/' ∉ a → '/' ∉ b →
    a ++ '/' :: x = b ++ '/' :: y → a = b ∧ x = y := by
  intro a
  induction a with
  | nil =>
    intro b x y _ hb h
    cases b with
    | nil =>
      simp only [List.nil_append] at h
      injection h with _ h2
      exact ⟨rfl, h2⟩
    | cons d bs =>
      simp only [List.nil_append, List.cons_append] at h
      injection h with h1 _
      exact absurd (h1 ▸ List.mem_cons_self d bs) hb
  | cons c as ih =>
    intro b x y ha hb h
    cases b with
    | nil =>
      simp only [List.cons_append, List.nil_append] at h
      injection h with h1 _
      exact absurd (h1 ▸ List.mem_cons_self c as) ha
    | cons d bs =>
      simp only [List.cons_append] at h
      injection h with h1 h2
      obtain ⟨h3, h4⟩ := ih bs x y
        (fun hm => ha (List.mem_cons_of_mem c hm))
        (fun hm => hb (List.mem_cons_of_mem d hm)) h2
      exact ⟨by rw [h1, h3], h4⟩

theorem repoExt_tail_len (r repo : List Char) (hrepo : matchRepoExt r = some repo) :
    r.length ≤ (repo ++ (if endsGit r = true then ['.', 'g', 'i', 't'] else [])).length := by
  rcases matchRepoExt_isSome_tail r repo hrepo with h | ⟨h1, h2⟩
  · rw [h]
  · subst h1
    rw [h2]
    simp

theorem swap_owner_eq (A B tailL r : List Char) (hA : '/' ∉ A)
    (hlen : r.length ≤ tailL.length)
    (heq : B ++ '/' :: tailL = A ++ '/' :: r) : B = A := by
  by_cases hB : '/' ∈ B
  · obtain ⟨b1, b2, rfl, hb1⟩ := firstSlash_decomp B hB
    have heq2 : b1 ++ '/' :: (b2 ++ '/' :: tailL) = A ++ '/' :: r := by
      simpa [List.append_assoc] using heq
    obtain ⟨_, h2⟩ := append_slash_inj b1 A _ _ hb1 hA heq2
    have hlen2 : (b2 ++ '/' :: tailL).length = r.length := congrArg List.length h2
    simp only [List.length_append, List.length_cons] at hlen2
    omega
  · exact (append_slash_inj B A tailL r hB hA heq).1

/-- The core of C2: any matched remote's `newUrl` equals the rename of its
URL, the URL's owner case-folds to `oldUsername`, and the match is a
no-op only if `newUsername` is exactly the URL's current owner. -/
theorem c2_core (remotes : List GitRemote) (oldU newU : String) :
    ∀ m ∈ findMatchingCore remotes oldU newU, ∃ A,
      extractGitHubUsername m.remote.url = some A ∧
      toLowerL A.toList = toLowerL oldU.toList ∧
      m.newUrl = replaceGitHubUsername m.remote.url oldU newU ∧
      (newU ≠ A → m.newUrl ≠ m.remote.url) := by
  intro m hm
  obtain ⟨g, hg, hf⟩ := List.mem_filterMap.mp hm
  by_cases hc : urlContainsUsername g.url oldU = true
  · rw [if_pos hc] at hf
    injection hf with hf
    subst hf
    simp only
    unfold urlContainsUsername at hc
    rcases he : extractGitHubUsername g.url with _ | A <;> rw [he] at hc
    · simp at hc
    · refine ⟨A, by trivial, by simpa using hc, by trivial, ?_⟩
      intro hne heq
      apply hne
      obtain ⟨pre, r, repo, hpre, hurl, hrepo, hno, hAne⟩ :=
        extract_decomp g.url A he
      rw [hurl] at heq
      rw [replace_eval A oldU newU pre r repo hpre hAne hno
        (by simpa using hc) hrepo] at heq
      have hlists := congrArg String.toList heq
      rw [toList_mk, toList_mk] at hlists
      have hcancel := List.append_cancel_left hlists
      have hown := swap_owner_eq A.toList newU.toList _ r hno
        (repoExt_tail_len r repo hrepo) hcancel
      have := congrArg String.mk hown
      rwa [mk_toList, mk_toList] at this
  · rw [if_neg hc] at hf
    simp at hf

/-- C2 counterexample: with `oldUsername = "ALICE"`, `newUsername =
"alice"` and a remote owned by `alice`, `findMatchingRemotes` produces a
matched remote whose `newUrl` equals `remote.url` — a no-op match is
included. -/
theorem c2_counterexample :
    findMatchingRemotes c2Tree [] "ALICE" "alice" =
      .ok [{ remote := { name := "origin",
                         url := "git@github.com:alice/repo.git" },
             newUrl := "git@github.com:alice/repo.git" }] ∧
    ({ remote := { name := "origin", url := "git@github.com:alice/repo.git" },
       newUrl := "git@github.com:alice/repo.git" } : MatchedRemote).newUrl =
      ({ remote := { name := "origin", url := "git@github.com:alice/repo.git" },
         newUrl := "git@github.com:alice/repo.git" } : MatchedRemote).remote.url := by
  exact ⟨by rfl, rfl⟩

/-- C2 (amended): every MatchedRemote produced by `findMatchingRemotes`
satisfies `newUrl = replaceGitHubUsername remote.url old new`, its owner
case-folds to `oldUsername`, and `newUrl ≠ remote.url` **provided**
`newUsername` differs from the remote's current owner as an exact string;
when `newUsername` equals the current owner, the no-op match is still
included. -/
theorem c2_no_noop_unless (root : FSEntry) (p : List String)
    (oldU newU : String) (ms : List MatchedRemote)
    (hms : findMatchingRemotes root p oldU newU = .ok ms) :
    ∀ m ∈ ms, ∃ A,
      extractGitHubUsername m.remote.url = some A ∧
      toLowerL A.toList = toLowerL oldU.toList ∧
      m.newUrl = replaceGitHubUsername m.remote.url oldU newU ∧
      (newU ≠ A → m.newUrl ≠ m.remote.url) := by
  unfold findMatchingRemotes at hms
  rcases hg : getRemoteUrls root p with e | remotes <;> rw [hg] at hms
  · simp [Except.map] at hms
  · simp only [Except.map] at hms
    injection hms with hms
    subst hms
    exact c2_core remotes oldU newU

/-- C2 witness: the amended statement at the concrete repository tree,
renaming `ALICE → carol`. -/
theorem c2_no_noop_unless_witness :
    ∃ A, extractGitHubUsername "git@github.com:alice/repo.git" = some A ∧
      toLowerL A.toList = toLowerL "ALICE".toList ∧
      ("git@github.com:carol/repo.git" : String) =
        replaceGitHubUsername "git@github.com:alice/repo.git" "ALICE" "carol" ∧
      (("carol" : String) ≠ A →
        ("git@github.com:carol/repo.git" : String) ≠ "git@github.com:alice/repo.git") :=
  c2_no_noop_unless c2Tree [] "ALICE" "carol"
    [{ remote := { name := "origin", url := "git@github.com:alice/repo.git" },
       newUrl := "git@github.com:carol/repo.git" }]
    (by rfl)
    { remote := { name := "origin", url := "git@github.com:alice/repo.git" },
      newUrl := "git@github.com:carol/repo.git" }
    (List.mem_cons_self _ _)

/-! ## Claim C8: a scan cancelled before the start -/

/-- C8: when the cancellation signal is already set before
`scanForRepositories` starts, the scan still returns a well-formed
`ScanResult`, with zero directories scanned, zero repositories found, no
matches and no errors — cancellation is not an error. -/
theorem c8_cancelled_scan_empty (root : FSEntry) (oldU newU : String)
    (maxD : Nat) (excl : List String) (cp : Option CustomPattern)
    (engine : RegexEngine) :
    scanForRepositories root oldU newU maxD true excl cp engine =
      initScanResult ∧
    (scanForRepositories root oldU newU maxD true excl cp engine).repositoriesFound = 0 ∧
    (scanForRepositories root oldU newU maxD true excl cp engine).matchedRepositories = [] := by
  exact ⟨rfl, rfl, rfl⟩

/-! ## Claim C10: the scan root is never filtered -/

theorem scanStep_dirs_mono (root : FSEntry) (oldU newU : String)
    (cp : Option CustomPattern) (engine : RegexEngine) (acc : ScanResult)
    (ev : ScanEvent) :
    acc.directoriesScanned ≤
      (scanStep root oldU newU cp engine acc ev).directoriesScanned := by
  cases ev with
  | dirE => simp [scanStep]
  | skipE => simp [scanStep]
  | repoE p =>
    simp only [scanStep]
    rcases hg : getRemoteUrls root p with e | remotes <;> simp only [hg]
    · exact Nat.le_refl _
    · split
      · exact Nat.le_refl _
      · exact Nat.le_refl _
  | errorE p m => simp [scanStep]

theorem scanFold_dirs_mono (root : FSEntry) (oldU newU : String)
    (cp : Option CustomPattern) (engine : RegexEngine) (evs : List ScanEvent) :
    ∀ acc : ScanResult, acc.directoriesScanned ≤
      (evs.foldl (scanStep root oldU newU cp engine) acc).directoriesScanned := by
  induction evs with
  | nil => intro acc; exact Nat.le_refl _
  | cons ev evs ih =>
    intro acc
    exact Nat.le_trans (scanStep_dirs_mono root oldU newU cp engine acc ev)
      (ih (scanStep root oldU newU cp engine acc ev))

/-- C10: the denylist, the dot-directory rule and the exclude globs are
applied only to child entries, never to the scan root: scanning any root
directory with the signal clear counts it as scanned (the first generator
event is always `dir`), and roots named `node_modules`, starting with a
dot, or matching an exclude glob still have the repositories beneath them
found and matched. -/
theorem c10_root_never_filtered (name : String) (es : List FSEntry)
    (oldU newU : String) (maxD : Nat) (excl : List String)
    (cp : Option CustomPattern) (engine : RegexEngine) :
    1 ≤ (scanForRepositories (.dir name es) oldU newU maxD false excl cp
        engine).directoriesScanned ∧
    (scanForRepositories c10RootNm "alice" "bob" 20 false [] none
      noMatchEngine).repositoriesFound = 1 ∧
    ((scanForRepositories c10RootNm "alice" "bob" 20 false [] none
      noMatchEngine).matchedRepositories.map (fun m => m.path)) = [["pkg"]] ∧
    (scanForRepositories c10RootDot "alice" "bob" 20 false [] none
      noMatchEngine).repositoriesFound = 1 ∧
    (scanForRepositories c10RootGlob "alice" "bob" 20 false ["temp*"] none
      noMatchEngine).repositoriesFound = 1 := by
  refine ⟨?_, by decide, by decide, by decide, by decide⟩
  show 1 ≤ ((scanDirectory (.dir name es) maxD false excl).foldl
    (scanStep (.dir name es) oldU newU cp engine) initScanResult).directoriesScanned
  have h1 : scanDirectory (.dir name es) maxD false excl =
      ScanEvent.dirE ::
        (if isGitRepo (.dir name es) then [ScanEvent.repoE []]
         else es.flatMap (fun c =>
           if false then []
           else if !isDirEntry c then []
           else if startsWithDot (entryName c) && !(entryName c = ".git") then
             [ScanEvent.skipE]
           else if shouldIgnoreSegment (entryName c) then [ScanEvent.skipE]
           else if matchesExcludePattern (entryName c) excl then [ScanEvent.skipE]
           else scanDirF (maxD + 1) c [entryName c] 1 maxD false excl)) := by
    show scanDirF (maxD + 1 + 1) (.dir name es) [] 0 maxD false excl = _
    rw [scanDirF]
    simp [Nat.not_lt_zero]
  rw [h1]
  rw [List.foldl_cons]
  have h2 : (scanStep (FSEntry.dir name es) oldU newU cp engine initScanResult
      ScanEvent.dirE).directoriesScanned = 1 := rfl
  exact h2 ▸ scanFold_dirs_mono _ _ _ _ _ _ _

/-! ## Claim C6: node_modules subtrees are pruned -/

/-- Every repository path the walk yields extends the initial path only by
segments that pass the ignore check. -/
theorem scanDirF_repo_paths : ∀ (fuel : Nat) (e : FSEntry) (path : List String)
    (depth maxD : Nat) (ab : Bool) (excl : List String) (p : List String),
    ScanEvent.repoE p ∈ scanDirF fuel e path depth maxD ab excl →
    ∀ s ∈ p, s ∈ path ∨ shouldIgnoreSegment s = false := by
  intro fuel
  induction fuel with
  | zero =>
    intro e path depth maxD ab excl p hmem
    simp [scanDirF] at hmem
  | succ fuel ih =>
    intro e path depth maxD ab excl p hmem s hs
    cases ab with
    | true => simp [scanDirF] at hmem
    | false =>
      by_cases hd : depth > maxD
      · simp [scanDirF, hd] at hmem
      · cases e with
        | file nm content => simp [scanDirF, hd, isGitRepo] at hmem
        | unreadable nm => simp [scanDirF, hd, isGitRepo] at hmem
        | dir nm es =>
          simp only [scanDirF] at hmem
          rw [if_neg (by simp : ¬(false = true))] at hmem
          rw [if_neg hd] at hmem
          rcases List.mem_cons.mp hmem with h1 | h1
          · simp at h1
          · by_cases hg : isGitRepo (FSEntry.dir nm es) = true
            · rw [if_pos hg] at h1
              have hp : p = path := by
                have h2 := List.mem_singleton.mp h1
                injection h2
              left
              exact hp ▸ hs
            · rw [if_neg hg] at h1
              obtain ⟨c, hc, hcm⟩ := List.mem_flatMap.mp h1
              rw [if_neg (by simp : ¬(false = true))] at hcm
              by_cases h2 : (!isDirEntry c) = true
              · rw [if_pos h2] at hcm
                simp at hcm
              · rw [if_neg h2] at hcm
                by_cases h3 : (startsWithDot (entryName c) &&
                    !(entryName c = ".git")) = true
                · rw [if_pos h3] at hcm
                  simp at hcm
                · rw [if_neg h3] at hcm
                  by_cases h4 : shouldIgnoreSegment (entryName c) = true
                  · rw [if_pos h4] at hcm
                    simp at hcm
                  · rw [if_neg h4] at hcm
                    by_cases h5 : matchesExcludePattern (entryName c) excl = true
                    · rw [if_pos h5] at hcm
                      simp at hcm
                    · rw [if_neg h5] at hcm
                      rcases ih c (path ++ [entryName c]) (depth + 1) maxD
                          false excl p hcm s hs with h6 | h6
                      · rcases List.mem_append.mp h6 with h7 | h7
                        · exact Or.inl h7
                        · right
                          have h8 : s = entryName c := List.mem_singleton.mp h7
                          rw [h8]
                          exact Bool.not_eq_true _ ▸ h4
                      · exact Or.inr h6

theorem scanStep_matched_inv (root : FSEntry) (oldU newU : String)
    (cp : Option CustomPattern) (engine : RegexEngine) (acc : ScanResult)
    (ev : ScanEvent) (m : MatchedRepository)
    (hm : m ∈ (scanStep root oldU newU cp engine acc ev).matchedRepositories) :
    m ∈ acc.matchedRepositories ∨
    (ev = ScanEvent.repoE m.path ∧ ∃ remotes,
      getRemoteUrls root m.path = .ok remotes ∧ m.remotes = remotes ∧
      m.matchedRemotes = matchedRemotesFor oldU newU cp engine remotes) := by
  cases ev with
  | dirE => exact Or.inl hm
  | skipE => exact Or.inl hm
  | errorE p msg => exact Or.inl hm
  | repoE p =>
    simp only [scanStep] at hm
    rcases hg : getRemoteUrls root p with e | remotes <;> simp only [hg] at hm
    · exact Or.inl hm
    · by_cases hl : (matchedRemotesFor oldU newU cp engine remotes).length > 0
      · rw [if_pos hl] at hm
        rcases List.mem_append.mp hm with h1 | h1
        · exact Or.inl h1
        · have hmm := List.mem_singleton.mp h1
          subst hmm
          exact Or.inr ⟨rfl, remotes, hg, rfl, rfl⟩
      · rw [if_neg hl] at hm
        exact Or.inl hm

theorem scanFold_matched_inv (root : FSEntry) (oldU newU : String)
    (cp : Option CustomPattern) (engine : RegexEngine) :
    ∀ (evs : List ScanEvent) (acc : ScanResult) (m : MatchedRepository),
    m ∈ (evs.foldl (scanStep root oldU newU cp engine) acc).matchedRepositories →
    m ∈ acc.matchedRepositories ∨
    (ScanEvent.repoE m.path ∈ evs ∧ ∃ remotes,
      getRemoteUrls root m.path = .ok remotes ∧ m.remotes = remotes ∧
      m.matchedRemotes = matchedRemotesFor oldU newU cp engine remotes) := by
  intro evs
  induction evs with
  | nil => intro acc m hm; exact Or.inl hm
  | cons ev evs ih =>
    intro acc m hm
    rcases ih (scanStep root oldU newU cp engine acc ev) m hm with h | ⟨h1, h2⟩
    · rcases scanStep_matched_inv root oldU newU cp engine acc ev m h with
        h3 | ⟨h4, h5⟩
      · exact Or.inl h3
      · exact Or.inr ⟨h4 ▸ List.mem_cons_self _ _, h5⟩
    · exact Or.inr ⟨List.mem_cons_of_mem ev h1, h2⟩

/-- C6: a repository nested anywhere beneath a directory literally named
`node_modules` is never reported: no `repo` event's path contains a
`node_modules` segment, no matched repository's path does, and on a
concrete tree with a repository inside `node_modules` the scan finds and
matches only the outside project while counting the `node_modules` child
as skipped and never exploring its subtree. -/
theorem c6_node_modules_pruned (root : FSEntry) (oldU newU : String)
    (maxD : Nat) (ab : Bool) (excl : List String) (cp : Option CustomPattern)
    (engine : RegexEngine) :
    (∀ p, ScanEvent.repoE p ∈ scanDirectory root maxD ab excl →
      "node_modules" ∉ p) ∧
    (∀ m ∈ (scanForRepositories root oldU newU maxD ab excl cp
        engine).matchedRepositories, "node_modules" ∉ m.path) ∧
    scanForRepositories c6Tree "alice" "bob" 20 false [] none noMatchEngine =
      { directoriesScanned := 2, skippedDirectories := 1, repositoriesFound := 1,
        matchedRepositories :=
          [{ path := ["proj"],
             remotes := [{ name := "origin",
                           url := "git@github.com:alice/proj.git" }],
             matchedRemotes :=
               [{ remote := { name := "origin",
                              url := "git@github.com:alice/proj.git" },
                  newUrl := "git@github.com:bob/proj.git" }] }],
        errors := [] } := by
  have hmain : ∀ p, ScanEvent.repoE p ∈ scanDirectory root maxD ab excl →
      "node_modules" ∉ p := by
    intro p hp hmem
    rcases scanDirF_repo_paths (maxD + 2) root [] 0 maxD ab excl p hp
        "node_modules" hmem with h | h
    · simp at h
    · revert h
      decide
  refine ⟨hmain, ?_, by decide⟩
  intro m hm
  rcases scanFold_matched_inv root oldU newU cp engine
      (scanDirectory root maxD ab excl) initScanResult m hm with h | ⟨h1, _⟩
  · simp [initScanResult] at h
  · exact hmain m.path h1

/-- C6 witness: the general clause applied to the concrete tree — the
single matched repository's path, `["proj"]`, contains no `node_modules`
segment. -/
theorem c6_node_modules_pruned_witness :
    ("node_modules" : String) ∉ (["proj"] : List String) :=
  (c6_node_modules_pruned c6Tree "alice" "bob" 20 false [] none
      noMatchEngine).2.1
    { path := ["proj"],
      remotes := [{ name := "origin", url := "git@github.com:alice/proj.git" }],
      matchedRemotes :=
        [{ remote := { name := "origin", url := "git@github.com:alice/proj.git" },
           newUrl := "git@github.com:bob/proj.git" }] }
    (by rw [(c6_node_modules_pruned c6Tree "alice" "bob" 20 false [] none
        noMatchEngine).2.2]; exact List.mem_cons_self _ _)

/-! ## Claim C3: custom-pattern mode -/

theorem foldl_scanStep_ext (f g : ScanResult → ScanEvent → ScanResult)
    (h : ∀ a b, f a b = g a b) :
    ∀ (l : List ScanEvent) (a : ScanResult), l.foldl f a = l.foldl g a := by
  intro l
  induction l with
  | nil => intro a; rfl
  | cons b bs ih =>
    intro a
    rw [List.foldl_cons, List.foldl_cons, h a b]
    exact ih (g a b)

theorem findMatchingPatternCore_mem (engine : RegexEngine)
    (remotes : List GitRemote) (fp tp : String) :
    ∀ mr ∈ findMatchingPatternCore engine remotes fp tp,
      mr.newUrl = applyCustomPattern engine mr.remote.url fp tp ∧
      engine fp mr.remote.url ≠ none := by
  intro mr hmr
  obtain ⟨g, hg, hf⟩ := List.mem_filterMap.mp hmr
  rcases he : engine fp g.url with _ | md <;> simp only [he] at hf
  · exact absurd hf (by simp)
  · injection hf with hf
    subst hf
    exact ⟨rfl, by simp [he]⟩

/-- C3 (modelled from the spec, §4.3 alternate mode): `applyCustomPattern`
performs a single substitution of the first regex match using the
template (with `$N` capture references) and returns the URL unchanged on
a non-match; and in custom-pattern mode the scan's matched remotes are
computed exclusively by it — the result does not depend on the username
arguments at all. -/
theorem c3_custom_pattern_mode (engine : RegexEngine) (root : FSEntry)
    (o1 n1 o2 n2 : String) (maxD : Nat) (ab : Bool) (excl : List String)
    (pat : CustomPattern) :
    (∀ url fp tp, engine fp url = none →
      applyCustomPattern engine url fp tp = url) ∧
    (∀ url fp tp md, engine fp url = some md →
      applyCustomPattern engine url fp tp =
        md.pre ++ substTemplate tp md.captures ++ md.post) ∧
    scanForRepositories root o1 n1 maxD ab excl (some pat) engine =
      scanForRepositories root o2 n2 maxD ab excl (some pat) engine ∧
    (∀ mrep ∈ (scanForRepositories root o1 n1 maxD ab excl (some pat)
        engine).matchedRepositories,
      ∀ mr ∈ mrep.matchedRemotes,
        mr.newUrl = applyCustomPattern engine mr.remote.url pat.fromPat pat.toPat ∧
        engine pat.fromPat mr.remote.url ≠ none) := by
  refine ⟨?_, ?_, ?_, ?_⟩
  · intro url fp tp h
    simp only [applyCustomPattern, h]
  · intro url fp tp md h
    simp only [applyCustomPattern, h]
  · unfold scanForRepositories
    exact foldl_scanStep_ext _ _
      (fun a b => by cases b <;> rfl) _ _
  · intro mrep hm mr hmr
    rcases scanFold_matched_inv root o1 n1 (some pat) engine
        (scanDirectory root maxD ab excl) initScanResult mrep hm with
      h | ⟨_, remotes, _, _, hmatched⟩
    · simp [initScanResult] at h
    · rw [hmatched] at hmr
      simp only [matchedRemotesFor] at hmr
      exact findMatchingPatternCore_mem engine remotes pat.fromPat pat.toPat
        mr hmr

/-- C3 witness: the non-match clause at a concrete engine and URL. -/
theorem c3_custom_pattern_mode_witness :
    applyCustomPattern noMatchEngine "git@github.com:u/r.git" "x" "y" =
      "git@github.com:u/r.git" :=
  (c3_custom_pattern_mode noMatchEngine (FSEntry.dir "r" []) "a" "b" "c" "d"
      20 false [] { fromPat := "x", toPat := "y" }).1
    "git@github.com:u/r.git" "x" "y" rfl

/-! ## Claim C7: migrate never aborts the batch -/

theorem setRemoteUrl_error (fs : MigFS) (p : List String) (rn nu e : String)
    (h : setRemoteUrl fs p rn nu = .error e) : e = enoentMsg := by
  unfold setRemoteUrl migRead at h
  rcases hf : fs.find? (fun kv => kv.1 = p) with _ | kv <;> simp only [hf] at h
  · simp only [Except.map] at h
    injection h with h
    exact h.symm
  · simp [Except.map] at h

theorem migrateRemotes_spec (rpath : List String) :
    ∀ (mrs : List MatchedRemote) (fs : MigFS) (lg : LoggerState),
      ((migrateRemotes fs lg rpath mrs).2.2).length = mrs.length ∧
      (∀ rr ∈ (migrateRemotes fs lg rpath mrs).2.2,
        rr.success = false → rr.error = some enoentMsg) := by
  intro mrs
  induction mrs with
  | nil =>
    intro fs lg
    exact ⟨rfl, by intro rr h; simp [migrateRemotes] at h⟩
  | cons mr rest ih =>
    intro fs lg
    simp only [migrateRemotes]
    rcases hs : setRemoteUrl fs rpath mr.remote.name mr.newUrl with e | fs' <;>
      simp only [hs]
    · rcases hrec : migrateRemotes fs
          (logFailure lg rpath mr.remote.name mr.remote.url mr.newUrl e)
          rpath rest with ⟨fs2, lg2, rs⟩
      have hih := ih fs
        (logFailure lg rpath mr.remote.name mr.remote.url mr.newUrl e)
      rw [hrec] at hih
      refine ⟨by simpa using hih.1, ?_⟩
      intro rr hrr _
      rcases List.mem_cons.mp hrr with h1 | h1
      · subst h1
        simp [setRemoteUrl_error fs rpath mr.remote.name mr.newUrl e hs]
      · exact hih.2 rr h1 (by assumption)
    · rcases hrec : migrateRemotes fs'
          (logSuccess lg rpath mr.remote.name mr.remote.url mr.newUrl)
          rpath rest with ⟨fs2, lg2, rs⟩
      have hih := ih fs'
        (logSuccess lg rpath mr.remote.name mr.remote.url mr.newUrl)
      rw [hrec] at hih
      refine ⟨by simpa using hih.1, ?_⟩
      intro rr hrr hfalse
      rcases List.mem_cons.mp hrr with h1 | h1
      · subst h1
        simp at hfalse
      · exact hih.2 rr h1 hfalse

theorem migrateRepository_eval (fs : MigFS) (lg : LoggerState)
    (repo : MatchedRepository) :
    migrateRepository fs lg repo =
      ((migrateRemotes fs lg repo.path repo.matchedRemotes).1,
       (migrateRemotes fs lg repo.path repo.matchedRemotes).2.1,
       { repository := repo,
         results := (migrateRemotes fs lg repo.path repo.matchedRemotes).2.2 }) := by
  unfold migrateRepository
  rcases migrateRemotes fs lg repo.path repo.matchedRemotes with ⟨a, b, c⟩
  rfl

theorem migrateList_spec : ∀ (repos : List MatchedRepository) (fs : MigFS)
    (lg : LoggerState),
    ((migrateList fs lg false repos).2.2).map (fun r => r.repository) = repos ∧
    (∀ r ∈ (migrateList fs lg false repos).2.2,
      r.results.length = r.repository.matchedRemotes.length ∧
      ∀ rr ∈ r.results, rr.success = false → rr.error = some enoentMsg) := by
  intro repos
  induction repos with
  | nil =>
    intro fs lg
    exact ⟨rfl, by intro r h; simp [migrateList] at h⟩
  | cons repo rest ih =>
    intro fs lg
    simp only [migrateList, migrateRepository_eval]
    rcases hrest : migrateList (migrateRemotes fs lg repo.path repo.matchedRemotes).1
        (migrateRemotes fs lg repo.path repo.matchedRemotes).2.1 false rest with
      ⟨fs2, lg2, rs⟩
    have hih := ih (migrateRemotes fs lg repo.path repo.matchedRemotes).1
      (migrateRemotes fs lg repo.path repo.matchedRemotes).2.1
    rw [hrest] at hih
    simp only [if_neg (by simp : ¬(false = true))]
    constructor
    · simp only [List.map_cons]
      rw [hih.1]
    · intro r hr
      rcases List.mem_cons.mp hr with h1 | h1
      · subst h1
        refine ⟨by simpa using (migrateRemotes_spec repo.path repo.matchedRemotes fs lg).1, ?_⟩
        intro rr hrr hfalse
        exact (migrateRemotes_spec repo.path repo.matchedRemotes fs lg).2 rr hrr hfalse
      · exact hih.2 r h1

/-- C7: with no cancellation, `migrate` produces exactly one
MigrationResult per input repository (in order), one RemoteResult per
matched remote, and every failed remote carries a non-empty error
message — a failure never aborts the batch. -/
theorem c7_migrate_batch (fs : MigFS) (repos : List MatchedRepository) :
    ((migrate fs repos false).2.2).map (fun r => r.repository) = repos ∧
    ((migrate fs repos false).2.2).length = repos.length ∧
    (∀ r ∈ (migrate fs repos false).2.2,
      r.results.length = r.repository.matchedRemotes.length) ∧
    (∀ r ∈ (migrate fs repos false).2.2, ∀ rr ∈ r.results,
      rr.success = false → ∃ e, rr.error = some e ∧ e ≠ "") := by
  have h := migrateList_spec repos fs initLogger
  refine ⟨h.1, ?_, ?_, ?_⟩
  · have := congrArg List.length h.1
    simpa using this
  · intro r hr
    exact (h.2 r hr).1
  · intro r hr rr hrr hfalse
    exact ⟨enoentMsg, (h.2 r hr).2 rr hrr hfalse, by decide⟩

/-- C7 witness: the batch of three repositories with the middle path
missing yields three results, and a failing remote's recorded error is
non-empty. -/
theorem c7_migrate_batch_witness :
    ((migrate c7FS c7Repos false).2.2).length = 3 ∧
    ∃ e, ({ remoteName := "origin", oldUrl := "git@github.com:alice/a.git",
            newUrl := "git@github.com:carol/a.git", success := false,
            error := some enoentMsg } : RemoteResult).error = some e ∧ e ≠ "" := by
  constructor
  · rw [(c7_migrate_batch c7FS c7Repos).2.1]
    decide
  · refine (c7_migrate_batch c7FS c7Repos).2.2.2
      { repository := c7Matched ["gone"],
        results := [{ remoteName := "origin",
                      oldUrl := "git@github.com:alice/a.git",
                      newUrl := "git@github.com:carol/a.git", success := false,
                      error := some enoentMsg }] }
      (by decide)
      { remoteName := "origin", oldUrl := "git@github.com:alice/a.git",
        newUrl := "git@github.com:carol/a.git", success := false,
        error := some enoentMsg }
      (by decide) (by decide)

/-! ## Claim C9: logger summary invariants -/

theorem applyLogOps_inv : ∀ (ops : List LogOp) (st : LoggerState),
    (st.summary.totalRepositories =
        st.summary.successfulMigrations + st.summary.failedMigrations ∧
      st.summary.totalRepositories = st.entries.length) →
    ((applyLogOps st ops).summary.totalRepositories =
        (applyLogOps st ops).summary.successfulMigrations +
          (applyLogOps st ops).summary.failedMigrations ∧
      (applyLogOps st ops).summary.totalRepositories =
        (applyLogOps st ops).entries.length) := by
  intro ops
  induction ops with
  | nil => intro st h; exact h
  | cons op rest ih =>
    intro st h
    apply ih
    cases op with
    | success p rn ou nu =>
      refine ⟨?_, ?_⟩ <;> simp [applyLogOp, logSuccess] <;> omega
    | failure p rn ou nu e =>
      refine ⟨?_, ?_⟩ <;> simp [applyLogOp, logFailure] <;> omega

theorem migrateRemotes_total (rpath : List String) :
    ∀ (mrs : List MatchedRemote) (fs : MigFS) (lg : LoggerState),
    (migrateRemotes fs lg rpath mrs).2.1.summary.totalRepositories =
      lg.summary.totalRepositories + mrs.length := by
  intro mrs
  induction mrs with
  | nil => intro fs lg; rfl
  | cons mr rest ih =>
    intro fs lg
    simp only [migrateRemotes]
    rcases hs : setRemoteUrl fs rpath mr.remote.name mr.newUrl with e | fs' <;>
      simp only [hs]
    · rcases hrec : migrateRemotes fs
          (logFailure lg rpath mr.remote.name mr.remote.url mr.newUrl e)
          rpath rest with ⟨fs2, lg2, rs⟩
      have hih := ih fs
        (logFailure lg rpath mr.remote.name mr.remote.url mr.newUrl e)
      rw [hrec] at hih
      simp only at hih ⊢
      rw [hih]
      simp [logFailure]
      omega
    · rcases hrec : migrateRemotes fs'
          (logSuccess lg rpath mr.remote.name mr.remote.url mr.newUrl)
          rpath rest with ⟨fs2, lg2, rs⟩
      have hih := ih fs'
        (logSuccess lg rpath mr.remote.name mr.remote.url mr.newUrl)
      rw [hrec] at hih
      simp only at hih ⊢
      rw [hih]
      simp [logSuccess]
      omega

theorem migrateList_total : ∀ (repos : List MatchedRepository) (fs : MigFS)
    (lg : LoggerState),
    (migrateList fs lg false repos).2.1.summary.totalRepositories =
      lg.summary.totalRepositories +
        (repos.map (fun r => r.matchedRemotes.length)).sum := by
  intro repos
  induction repos with
  | nil => intro fs lg; simp [migrateList]
  | cons repo rest ih =>
    intro fs lg
    simp only [migrateList, migrateRepository_eval]
    rcases hrest : migrateList (migrateRemotes fs lg repo.path repo.matchedRemotes).1
        (migrateRemotes fs lg repo.path repo.matchedRemotes).2.1 false rest with
      ⟨fs2, lg2, rs⟩
    have hih := ih (migrateRemotes fs lg repo.path repo.matchedRemotes).1
      (migrateRemotes fs lg repo.path repo.matchedRemotes).2.1
    rw [hrest] at hih
    simp only [if_neg (by simp : ¬(false = true))]
    simp only at hih ⊢
    rw [hih, migrateRemotes_total repo.path repo.matchedRemotes fs lg]
    simp [List.sum_cons]
    omega

/-- C9: after any sequence of `logSuccess`/`logFailure` calls on a fresh
`MigrationLogger`, `totalRepositories = successfulMigrations +
failedMigrations` and equals the number of log entries; and after
`migrate` (which makes one such call per matched remote)
`summary.totalRepositories` is the total number of matched remotes —
remote-level migration attempts, not distinct repositories. -/
theorem c9_logger_totals (ops : List LogOp) (fs : MigFS)
    (repos : List MatchedRepository) :
    ((applyLogOps initLogger ops).summary.totalRepositories =
        (applyLogOps initLogger ops).summary.successfulMigrations +
          (applyLogOps initLogger ops).summary.failedMigrations ∧
      (applyLogOps initLogger ops).summary.totalRepositories =
        (applyLogOps initLogger ops).entries.length) ∧
    (migrate fs repos false).2.1.summary.totalRepositories =
      (repos.map (fun r => r.matchedRemotes.length)).sum := by
  constructor
  · exact applyLogOps_inv ops initLogger ⟨rfl, rfl⟩
  · have h := migrateList_total repos fs initLogger
    simpa [initLogger] using h
